import Mathlib

/-!
Shallow embedding of `threadpool.py` (mingxiaoHe/ThreadPool).

The Python program is a concurrent thread pool.  We embed it as a
small-step interleaved transition system:

* `PoolState` holds the shared fields of the `ThreadPool` object
  (`q`, `max_num`, `cancel`, `terminal`, `generate_list`, `free_list`)
  together with the local control point (`WPc`) of every thread that has
  been started, the control point of the main thread (`CPc`, needed
  because `terminate` is a loop that interleaves with the workers), a
  fresh-id counter and a log of observable events (function executions
  and callback invocations).
* Every atomic action of the Python program (one worker statement, or
  one controller call / loop iteration) is a `step`; arbitrary
  interleavings are arbitrary `runTrace` action lists.

The queue is modelled for the `max_task_num = None` configuration
(unbounded, `put` never blocks), which is the configuration all claims
are about.  A blocking `q.get()` on an empty queue is a disabled step.

A Python function that may raise is embedded as `Except`: a `Task`
records whether its function raises (`fnRaises`), the value it returns
otherwise (`fnResult`), whether a callback was supplied (`hasCb`) and
whether that callback raises (`cbRaises`).
-/

namespace TP

/-- A task as built by `ThreadPool.run`: the tuple `(func, args, callback)`,
abstracted to the data the claims need.  `tid` identifies the task,
`fnRaises`/`fnResult` give the outcome of `func(*args)` as an
exception-or-value, `hasCb` says whether `callback` is not `None`, and
`cbRaises` says whether the callback itself raises. -/
structure Task where
  tid : Nat
  fnRaises : Bool
  fnResult : Nat
  hasCb : Bool
  cbRaises : Bool
deriving DecidableEq, Repr

/-- A queue element: either a task tuple or the `StopEvent` sentinel. -/
inductive QItem where
  | task (t : Task)
  | stop
deriving DecidableEq, Repr

/-- Control points of a worker thread inside `ThreadPool.call`
(`threadpool.py` lines 63-94):
`start` = about to append itself to `generate_list` (line 68);
`firstGet` = about to do the first blocking `q.get()` (line 70), note
the worker is NOT in `free_list` here;
`loopCheck e` = at the `while event != StopEvent` test (line 71);
`runTask t` = executing the task body and callback (lines 73-85);
`enterIdle` = about to append itself to `free_list` (line 122);
`idleCheck` = inside `worker_state`, at the `if self.terminal` test (line 89);
`idleGet` = blocking `q.get()` inside `worker_state` (line 92);
`exitIdle e` = at the `finally` removal from `free_list` (line 126);
`removeSelf` = at `generate_list.remove(current_thread)` (line 94);
`done` = thread finished. -/
inductive WPc where
  | start
  | firstGet
  | loopCheck (e : QItem)
  | runTask (t : Task)
  | enterIdle
  | idleCheck
  | idleGet
  | exitIdle (e : QItem)
  | removeSelf
  | done
deriving DecidableEq, Repr

/-- Observable events: the pool executed a task's function (with the
recorded success flag and result), or invoked a task's callback with
`(success, result)`. -/
inductive Event where
  | exec (tid : Nat) (success : Bool) (result : Option Nat)
  | cb (tid : Nat) (success : Bool) (result : Option Nat)
deriving DecidableEq, Repr

/-- Control point of the main (controller) thread: `idle` between public
calls, `terming` while inside `terminate`'s `while self.generate_list`
loop (lines 112-113). -/
inductive CPc where
  | idle
  | terming
deriving DecidableEq, Repr

/-- The full system state: the `ThreadPool` object's fields plus every
spawned thread's control point and the event log. -/
structure PoolState where
  q : List QItem
  maxNum : Int
  cancel : Bool
  terminal : Bool
  generateList : List Nat
  freeList : List Nat
  workers : List (Nat × WPc)
  nextId : Nat
  cpc : CPc
  log : List Event
deriving DecidableEq, Repr

/-- `ThreadPool.__init__(max_num)` (lines 27-36) with
`max_task_num = None`: note the constructor stores `max_num` without any
validation and always succeeds. -/
def initPool (maxNum : Int) : PoolState :=
  { q := []
    maxNum := maxNum
    cancel := false
    terminal := false
    generateList := []
    freeList := []
    workers := []
    nextId := 0
    cpc := CPc.idle
    log := [] }

/-- `generate_thread` + `threading.Thread(target=self.call).start()`
(lines 56-61): a new thread is created at control point `start`; its
registration into `generate_list` happens later, in the thread itself. -/
def spawnWorker (s : PoolState) : PoolState :=
  { s with workers := s.workers ++ [(s.nextId, WPc.start)], nextId := s.nextId + 1 }

/-- `ThreadPool.run(func, args, callback)` (lines 38-53): return
immediately if `cancel` is set; otherwise spawn one thread iff
`len(free_list) == 0 and len(generate_list) < max_num`, then
unconditionally `q.put((func, args, callback))`. -/
def runStep (s : PoolState) (t : Task) : PoolState :=
  if s.cancel then s
  else
    let s1 := if s.freeList.length = 0 ∧ (s.generateList.length : Int) < s.maxNum then
                spawnWorker s
              else s
    { s1 with q := s1.q ++ [QItem.task t] }

/-- `ThreadPool.close` (lines 96-104): set `cancel`, snapshot
`full_size = len(generate_list) + 1`, and `put(StopEvent)` that many
times.  The snapshot-then-put loop is modelled as one step; only the
count and the tail position of the puts matter to the claims. -/
def closeStep (s : PoolState) : PoolState :=
  { s with cancel := true
           q := s.q ++ List.replicate (s.generateList.length + 1) QItem.stop }

/-- Outcome of `func(*args)` (line 75), as exception-or-value. -/
def runFunc (t : Task) : Except Unit Nat :=
  if t.fnRaises then Except.error () else Except.ok t.fnResult

/-- The `try/except` around `func(*args)` (lines 74-79): on a normal
return, `success = True` and `result` is the return value; on an
exception, `success = False` and `result = None`. -/
def execTask (t : Task) : Bool × Option Nat :=
  match runFunc t with
  | Except.ok r => (true, some r)
  | Except.error _ => (false, none)

/-- Outcome of `callback(success, result)` (line 83), as
exception-or-value. -/
def callCb (t : Task) (_success : Bool) (_result : Option Nat) : Except Unit Unit :=
  if t.cbRaises then Except.error () else Except.ok ()

/-- Events produced by one execution of the loop body lines 73-85: the
function runs inside its `try/except`, and if a callback was supplied it
is invoked with `(success, result)`; the callback's own exception is
swallowed by `except: pass` (lines 84-85), so the recorded invocation is
the same whether or not the callback raises. -/
def taskEvents (t : Task) : List Event :=
  let sr := execTask t
  Event.exec t.tid sr.1 sr.2 ::
    (if t.hasCb then
      match callCb t sr.1 sr.2 with
      | Except.ok _ => [Event.cb t.tid sr.1 sr.2]
      | Except.error _ => [Event.cb t.tid sr.1 sr.2]
    else [])

/-- Row of thread `w`? -/
def isRow (w : Nat) (p : Nat × WPc) : Bool :=
  p.1 == w

/-- The control point of thread `w`, read off the thread table. -/
def wpcOf (s : PoolState) (w : Nat) : Option WPc :=
  (s.workers.find? (isRow w)).map Prod.snd

/-- Update the row of thread `w` to control point `pc`. -/
def updRow (w : Nat) (pc : WPc) (p : Nat × WPc) : Nat × WPc :=
  if p.1 == w then (p.1, pc) else p

/-- Move thread `w` to control point `pc` (its local program counter
advancing; no shared field is touched). -/
def updPc (s : PoolState) (w : Nat) (pc : WPc) : PoolState :=
  { s with workers := s.workers.map (updRow w pc) }

/-- One atomic statement of worker `w` inside `ThreadPool.call`
(lines 63-94), following the control points of `WPc`.  A blocking
`q.get()` on an empty queue is disabled (`none`), as is any step of a
finished thread. -/
def wStep (s : PoolState) (w : Nat) : Option PoolState :=
  match wpcOf s w with
  | none => none
  | some WPc.start =>
      some { (updPc s w WPc.firstGet) with generateList := s.generateList ++ [w] }
  | some WPc.firstGet =>
      match s.q with
      | [] => none
      | e :: rest => some { (updPc s w (WPc.loopCheck e)) with q := rest }
  | some (WPc.loopCheck e) =>
      match e with
      | QItem.stop => some (updPc s w WPc.removeSelf)
      | QItem.task t => some (updPc s w (WPc.runTask t))
  | some (WPc.runTask t) =>
      some { (updPc s w WPc.enterIdle) with log := s.log ++ taskEvents t }
  | some WPc.enterIdle =>
      some { (updPc s w WPc.idleCheck) with freeList := s.freeList ++ [w] }
  | some WPc.idleCheck =>
      if s.terminal then some (updPc s w (WPc.exitIdle QItem.stop))
      else some (updPc s w WPc.idleGet)
  | some WPc.idleGet =>
      match s.q with
      | [] => none
      | e :: rest => some { (updPc s w (WPc.exitIdle e)) with q := rest }
  | some (WPc.exitIdle e) =>
      some { (updPc s w (WPc.loopCheck e)) with freeList := s.freeList.erase w }
  | some WPc.removeSelf =>
      some { (updPc s w WPc.done) with generateList := s.generateList.erase w }
  | some WPc.done => none

/-- The atomic actions of the system: a public call by the main thread
(`run`, `close`), the three atomic pieces of `terminate` (set the flag
and enter the loop; one `put(StopEvent)` iteration while
`generate_list` is non-empty, lines 112-113; the final
`q.queue.clear()` once the loop exits, line 115), or one statement of a
worker thread. -/
inductive Act where
  | submit (t : Task)
  | close
  | termBegin
  | termLoopPut
  | termClear
  | wstep (w : Nat)
deriving DecidableEq, Repr

/-- One step of the whole system.  Controller calls are only enabled
when the main thread is not inside `terminate`'s loop; the two
`terminate` loop actions are only enabled in the branch the Python
`while self.generate_list` test actually takes. -/
def step (s : PoolState) (a : Act) : Option PoolState :=
  match a with
  | Act.submit t => if s.cpc = CPc.idle then some (runStep s t) else none
  | Act.close => if s.cpc = CPc.idle then some (closeStep s) else none
  | Act.termBegin =>
      if s.cpc = CPc.idle then some { s with terminal := true, cpc := CPc.terming }
      else none
  | Act.termLoopPut =>
      if s.cpc = CPc.terming ∧ s.generateList ≠ [] then
        some { s with q := s.q ++ [QItem.stop] }
      else none
  | Act.termClear =>
      if s.cpc = CPc.terming ∧ s.generateList = [] then
        some { s with q := [], cpc := CPc.idle }
      else none
  | Act.wstep w => wStep s w

/-- Run a list of actions from a state; `none` if some action is not
enabled where it occurs. -/
def runTrace (s : PoolState) : List Act → Option PoolState
  | [] => some s
  | a :: as =>
      match step s a with
      | none => none
      | some s' => runTrace s' as

/-- Control points at which the worker is registered in `free_list`:
exactly the region bracketed by the `worker_state` context manager
(lines 87-92 together with 122-126). -/
def isIdlePc : WPc → Bool
  | WPc.idleCheck => true
  | WPc.idleGet => true
  | WPc.exitIdle _ => true
  | _ => false

/-- Control points at which the worker is registered in
`generate_list`: from its self-append (line 68) up to and including its
self-removal (line 94). -/
def isActivePc : WPc → Bool
  | WPc.start => false
  | WPc.done => false
  | _ => true

/-- Thread just spawned, not yet self-registered (between line 61 and
line 68). -/
def isStartPc : WPc → Bool
  | WPc.start => true
  | _ => false

/-- The task id carried by a queue item, if it is a task. -/
def itemTid : QItem → Option Nat
  | QItem.task t => some t.tid
  | QItem.stop => none

/-- The task id a worker currently holds (as its loop event, the task it
is executing, or the item it just dequeued inside `worker_state`), if
any. -/
def pcTid : WPc → Option Nat
  | WPc.loopCheck (QItem.task t) => some t.tid
  | WPc.runTask t => some t.tid
  | WPc.exitIdle (QItem.task t) => some t.tid
  | _ => none

/-- The task id an event refers to. -/
def eventTid : Event → Nat
  | Event.exec i _ _ => i
  | Event.cb i _ _ => i

/-- Task id `tid` occurs nowhere in the system: not in the queue and not
held by any worker.  Such a task can never be executed again. -/
def tidAbsent (tid : Nat) (s : PoolState) : Prop :=
  (∀ it ∈ s.q, itemTid it ≠ some tid) ∧ (∀ p ∈ s.workers, pcTid p.2 ≠ some tid)

instance (tid : Nat) (s : PoolState) : Decidable (tidAbsent tid s) := by
  unfold tidAbsent
  exact instDecidableAnd

/-- Queue layout after `close`: a (possibly empty) run of tasks followed
only by `StopEvent`s. -/
def tasksThenStops : List QItem → Prop
  | [] => True
  | QItem.task _ :: r => tasksThenStops r
  | QItem.stop :: r => ∀ it ∈ r, it = QItem.stop

instance : (q : List QItem) → Decidable (tasksThenStops q)
  | [] => by unfold tasksThenStops; exact inferInstance
  | QItem.task _ :: r => by unfold tasksThenStops; exact instDecidableTasksThenStops r
  | QItem.stop :: r => by unfold tasksThenStops; exact inferInstance

/-- Number of `StopEvent`s in a queue. -/
def countStops (q : List QItem) : Nat :=
  (q.filter (fun it => it == QItem.stop)).length

/-- Guard for one action: if the action is a `run` call, no spawned
thread may still be unregistered when it happens. -/
def submitGuard (s : PoolState) : Act → Prop
  | Act.submit _ => ∀ p ∈ s.workers, isStartPc p.2 = false
  | _ => True

instance (s : PoolState) : (a : Act) → Decidable (submitGuard s a)
  | Act.submit _ => by unfold submitGuard; exact inferInstance
  | Act.close => by unfold submitGuard; exact inferInstance
  | Act.termBegin => by unfold submitGuard; exact inferInstance
  | Act.termLoopPut => by unfold submitGuard; exact inferInstance
  | Act.termClear => by unfold submitGuard; exact inferInstance
  | Act.wstep _ => by unfold submitGuard; exact inferInstance

/-- A trace is submit-safe when every `run` call in it happens while no
spawned thread is still unregistered (i.e. the registration at line 68
of each spawned thread has run before the next `run` call reads
`generate_list`). -/
def SubmitSafe : PoolState → List Act → Prop
  | _, [] => True
  | s, a :: as =>
      submitGuard s a ∧
      (match step s a with
       | none => True
       | some s' => SubmitSafe s' as)

instance : (s : PoolState) → (as : List Act) → Decidable (SubmitSafe s as)
  | _, [] => by unfold SubmitSafe; exact inferInstance
  | s, a :: as => by
      unfold SubmitSafe
      have : Decidable (match step s a with
        | none => True
        | some s' => SubmitSafe s' as) := by
        cases step s a with
        | none => exact inferInstance
        | some s' => exact instDecidableSubmitSafe s' as
      exact instDecidableAnd

/-! ### Helper lemmas about the thread table -/

theorem updRow_of_eq {w : Nat} (pc : WPc) {p : Nat × WPc} (h : p.1 = w) :
    updRow w pc p = (p.1, pc) := by
  simp [updRow, h]

theorem updRow_of_ne {w : Nat} (pc : WPc) {p : Nat × WPc} (h : ¬ p.1 = w) :
    updRow w pc p = p := by
  simp [updRow, h]

theorem updRow_fst (w : Nat) (pc : WPc) (p : Nat × WPc) : (updRow w pc p).1 = p.1 := by
  by_cases h : p.1 = w
  · rw [updRow_of_eq pc h]
  · rw [updRow_of_ne pc h]

theorem isRow_updRow (w w' : Nat) (pc : WPc) (p : Nat × WPc) :
    isRow w' (updRow w pc p) = isRow w' p := by
  simp [isRow, updRow_fst]

theorem isRow_iff {w : Nat} {p : Nat × WPc} : isRow w p = true ↔ p.1 = w := by
  simp [isRow]

theorem updList_map_fst (l : List (Nat × WPc)) (w : Nat) (pc : WPc) :
    (l.map (updRow w pc)).map Prod.fst = l.map Prod.fst := by
  induction l with
  | nil => rfl
  | cons p rest ih =>
      simp only [List.map_cons, ih, updRow_fst]

theorem mem_updList_of_ne {l : List (Nat × WPc)} {w x : Nat} {pcx pc : WPc} (hne : x ≠ w) :
    ((x, pcx) ∈ l.map (updRow w pc)) ↔ (x, pcx) ∈ l := by
  induction l with
  | nil => simp
  | cons p rest ih =>
      obtain ⟨a, b⟩ := p
      by_cases h : a = w
      · have hxa : ¬ x = a := by rw [h]; exact hne
        simp [updRow_of_eq pc (show ((a, b) : Nat × WPc).1 = w from h), Prod.ext_iff, hxa, ih]
      · simp [updRow_of_ne pc (show ¬ ((a, b) : Nat × WPc).1 = w from h), ih]

theorem mem_updList_self {l : List (Nat × WPc)} {w : Nat} {pcx pc : WPc} :
    ((w, pcx) ∈ l.map (updRow w pc)) ↔ (pcx = pc ∧ ∃ pc0, (w, pc0) ∈ l) := by
  induction l with
  | nil => simp
  | cons p rest ih =>
      obtain ⟨a, b⟩ := p
      by_cases h : a = w
      · subst h
        simp only [List.map_cons, List.mem_cons,
          updRow_of_eq pc (show ((a, b) : Nat × WPc).1 = a from rfl), ih, Prod.ext_iff]
        aesop
      · have hwa : ¬ w = a := fun hh => h hh.symm
        simp [updRow_of_ne pc (show ¬ ((a, b) : Nat × WPc).1 = w from h), ih, Prod.ext_iff, hwa]

theorem findpc_updList_self (l : List (Nat × WPc)) (w : Nat) (pc : WPc) :
    ((l.map (updRow w pc)).find? (isRow w)).map Prod.snd
      = ((l.find? (isRow w)).map Prod.snd).map (fun _ => pc) := by
  induction l with
  | nil => rfl
  | cons p rest ih =>
      by_cases h : p.1 = w
      · rw [List.map_cons,
          List.find?_cons_of_pos _ (by rw [isRow_updRow]; exact isRow_iff.mpr h),
          List.find?_cons_of_pos _ (isRow_iff.mpr h)]
        rw [updRow_of_eq pc h]
        rfl
      · rw [List.map_cons,
          List.find?_cons_of_neg _ (by rw [isRow_updRow]; simp [isRow_iff, h]),
          List.find?_cons_of_neg _ (by simp [isRow_iff, h])]
        exact ih

theorem findpc_updList_ne (l : List (Nat × WPc)) {w w' : Nat} (pc : WPc) (hne : w' ≠ w) :
    (l.map (updRow w pc)).find? (isRow w') = l.find? (isRow w') := by
  induction l with
  | nil => rfl
  | cons p rest ih =>
      by_cases h : p.1 = w'
      · rw [List.map_cons,
          List.find?_cons_of_pos _ (by rw [isRow_updRow]; exact isRow_iff.mpr h),
          List.find?_cons_of_pos _ (isRow_iff.mpr h)]
        rw [updRow_of_ne pc (by rw [h]; exact hne)]
      · rw [List.map_cons,
          List.find?_cons_of_neg _ (by rw [isRow_updRow]; simp [isRow_iff, h]),
          List.find?_cons_of_neg _ (by simp [isRow_iff, h])]
        exact ih

theorem findpc_of_mem {l : List (Nat × WPc)} (hnd : (l.map Prod.fst).Nodup) {w : Nat} {pc : WPc}
    (h : (w, pc) ∈ l) : (l.find? (isRow w)).map Prod.snd = some pc := by
  induction l with
  | nil => cases h
  | cons p rest ih =>
      have hnd2 : p.1 ∉ rest.map Prod.fst ∧ (rest.map Prod.fst).Nodup := by
        rw [List.map_cons] at hnd
        exact List.nodup_cons.mp hnd
      rcases List.mem_cons.mp h with h1 | h1
      · subst h1
        rw [List.find?_cons_of_pos _ (show isRow w (w, pc) = true from isRow_iff.mpr rfl)]
        rfl
      · have hw : w ∈ rest.map Prod.fst := List.mem_map.mpr ⟨(w, pc), h1, rfl⟩
        have hne : ¬ (p.1 = w) := fun hh => hnd2.1 (hh ▸ hw)
        rw [List.find?_cons_of_neg _ (by simp [isRow_iff, hne])]
        exact ih hnd2.2 h1

/-- State-level versions. -/
theorem wpcOf_mem {s : PoolState} {w : Nat} {pc : WPc} (h : wpcOf s w = some pc) :
    (w, pc) ∈ s.workers := by
  unfold wpcOf at h
  cases hf : s.workers.find? (isRow w) with
  | none => rw [hf] at h; cases h
  | some pr =>
      rw [hf] at h
      have hm := List.mem_of_find?_eq_some hf
      have hp := List.find?_some hf
      have h1 : pr.1 = w := isRow_iff.mp hp
      obtain ⟨a, b⟩ := pr
      simp only [Option.map_some', Option.some.injEq] at h
      simp only at h1
      subst h
      subst h1
      exact hm

theorem mem_wpcOf {s : PoolState} (hnd : (s.workers.map Prod.fst).Nodup) {w : Nat} {pc : WPc}
    (h : (w, pc) ∈ s.workers) : wpcOf s w = some pc :=
  findpc_of_mem hnd h

theorem wpcOf_updPc_self {s : PoolState} {w : Nat} {pc0 : WPc} (pc : WPc)
    (h : wpcOf s w = some pc0) : wpcOf (updPc s w pc) w = some pc := by
  show ((s.workers.map (updRow w pc)).find? (isRow w)).map Prod.snd = some pc
  rw [findpc_updList_self]
  unfold wpcOf at h
  rw [h]
  rfl

theorem wpcOf_updPc_ne {s : PoolState} {w w' : Nat} (pc : WPc) (hne : w' ≠ w) :
    wpcOf (updPc s w pc) w' = wpcOf s w' := by
  show ((s.workers.map (updRow w pc)).find? (isRow w')).map Prod.snd = _
  rw [findpc_updList_ne _ pc hne]
  rfl

theorem mem_updPc_of_ne {s : PoolState} {w x : Nat} {pcx pc : WPc} (hne : x ≠ w) :
    ((x, pcx) ∈ (updPc s w pc).workers) ↔ (x, pcx) ∈ s.workers :=
  mem_updList_of_ne hne

theorem mem_updPc_self {s : PoolState} {w : Nat} {pcx pc : WPc} :
    ((w, pcx) ∈ (updPc s w pc).workers) ↔ (pcx = pc ∧ ∃ pc0, (w, pc0) ∈ s.workers) :=
  mem_updList_self

theorem exists_pc_updPc {s : PoolState} {x w : Nat} (pc' : WPc)
    (h : ∃ pc0, (x, pc0) ∈ s.workers) : ∃ pc1, (x, pc1) ∈ (updPc s w pc').workers := by
  obtain ⟨pc0, h0⟩ := h
  by_cases hx : x = w
  · subst hx
    exact ⟨pc', mem_updPc_self.mpr ⟨rfl, pc0, h0⟩⟩
  · exact ⟨pc0, (mem_updPc_of_ne hx).mpr h0⟩

theorem wpcOf_spawn_of_some {s : PoolState} {w : Nat} {pc : WPc} (h : wpcOf s w = some pc) :
    wpcOf (spawnWorker s) w = some pc := by
  unfold wpcOf spawnWorker at *
  simp only [List.find?_append]
  cases hf : s.workers.find? (isRow w) with
  | none => rw [hf] at h; cases h
  | some pr =>
      rw [hf] at h
      rw [Option.or]
      exact h

/-! ### The structural invariant of reachable states -/

/-- Structural well-formedness: thread ids are unique and below the
fresh-id counter; the two bookkeeping lists are duplicate-free; a
thread is in `generate_list` exactly between its self-registration
(line 68) and its self-removal (line 94); a thread is in `free_list`
exactly inside the `worker_state` bracket (lines 122-126); and both
lists mention only spawned threads. -/
structure WF (s : PoolState) : Prop where
  fresh : ∀ p ∈ s.workers, p.1 < s.nextId
  keysNodup : (s.workers.map Prod.fst).Nodup
  genNodup : s.generateList.Nodup
  freeNodup : s.freeList.Nodup
  genChar : ∀ p ∈ s.workers, (p.1 ∈ s.generateList ↔ isActivePc p.2 = true)
  freeChar : ∀ p ∈ s.workers, (p.1 ∈ s.freeList ↔ isIdlePc p.2 = true)
  genSub : ∀ w ∈ s.generateList, ∃ pc, (w, pc) ∈ s.workers
  freeSub : ∀ w ∈ s.freeList, ∃ pc, (w, pc) ∈ s.workers

theorem pc_unique {s : PoolState} (hnd : (s.workers.map Prod.fst).Nodup) {w : Nat}
    {pc1 pc2 : WPc} (h1 : (w, pc1) ∈ s.workers) (h2 : (w, pc2) ∈ s.workers) : pc1 = pc2 := by
  have e1 := findpc_of_mem hnd h1
  have e2 := findpc_of_mem hnd h2
  rw [e1] at e2
  exact Option.some.inj e2

theorem wf_of_eq {s s' : PoolState} (hwf : WF s)
    (hw : s'.workers = s.workers) (hg : s'.generateList = s.generateList)
    (hf : s'.freeList = s.freeList) (hn : s'.nextId = s.nextId) : WF s' := by
  refine ⟨?_, ?_, ?_, ?_, ?_, ?_, ?_, ?_⟩
  · rw [hw, hn]; exact hwf.fresh
  · rw [hw]; exact hwf.keysNodup
  · rw [hg]; exact hwf.genNodup
  · rw [hf]; exact hwf.freeNodup
  · rw [hw, hg]; exact hwf.genChar
  · rw [hw, hf]; exact hwf.freeChar
  · rw [hg, hw]; exact hwf.genSub
  · rw [hf, hw]; exact hwf.freeSub

theorem wf_init (m : Int) : WF (initPool m) := by
  refine ⟨?_, ?_, ?_, ?_, ?_, ?_, ?_, ?_⟩ <;> simp [initPool]

theorem wf_spawn {s : PoolState} (hwf : WF s) : WF (spawnWorker s) := by
  have hgnew : s.nextId ∉ s.generateList := by
    intro hmem
    obtain ⟨pc, hpc⟩ := hwf.genSub _ hmem
    exact absurd (hwf.fresh _ hpc) (lt_irrefl _)
  have hfnew : s.nextId ∉ s.freeList := by
    intro hmem
    obtain ⟨pc, hpc⟩ := hwf.freeSub _ hmem
    exact absurd (hwf.fresh _ hpc) (lt_irrefl _)
  have hknew : s.nextId ∉ s.workers.map Prod.fst := by
    intro hmem
    obtain ⟨p, hp, hfst⟩ := List.mem_map.mp hmem
    exact absurd (hfst ▸ hwf.fresh p hp) (lt_irrefl _)
  refine ⟨?_, ?_, ?_, ?_, ?_, ?_, ?_, ?_⟩
  · intro p hp
    rcases List.mem_append.mp hp with h | h
    · exact Nat.lt_succ_of_lt (hwf.fresh p h)
    · simp only [List.mem_singleton] at h
      subst h
      exact Nat.lt_succ_self _
  · show ((s.workers ++ [(s.nextId, WPc.start)]).map Prod.fst).Nodup
    rw [List.map_append]
    refine hwf.keysNodup.append (by simp) ?_
    intro x hx hy
    simp only [List.map_cons, List.map_nil, List.mem_singleton] at hy
    subst hy
    exact hknew hx
  · exact hwf.genNodup
  · exact hwf.freeNodup
  · intro p hp
    rcases List.mem_append.mp hp with h | h
    · exact hwf.genChar p h
    · simp only [List.mem_singleton] at h
      subst h
      simp [spawnWorker, isActivePc, hgnew]
  · intro p hp
    rcases List.mem_append.mp hp with h | h
    · exact hwf.freeChar p h
    · simp only [List.mem_singleton] at h
      subst h
      simp [spawnWorker, isIdlePc, hfnew]
  · intro x hmem
    obtain ⟨pc, h⟩ := hwf.genSub x hmem
    exact ⟨pc, List.mem_append_left _ h⟩
  · intro x hmem
    obtain ⟨pc, h⟩ := hwf.freeSub x hmem
    exact ⟨pc, List.mem_append_left _ h⟩

theorem wf_updPc_flags {s : PoolState} (hwf : WF s) {w : Nat} {pc0 : WPc} (pc1 : WPc)
    (h : wpcOf s w = some pc0)
    (ha : isActivePc pc1 = isActivePc pc0) (hi : isIdlePc pc1 = isIdlePc pc0) :
    WF (updPc s w pc1) := by
  have hmem := wpcOf_mem h
  refine ⟨?_, ?_, ?_, ?_, ?_, ?_, ?_, ?_⟩
  · intro p hp
    obtain ⟨p0, hp0, rfl⟩ := List.mem_map.mp hp
    rw [updRow_fst]
    exact hwf.fresh p0 hp0
  · show ((s.workers.map (updRow w pc1)).map Prod.fst).Nodup
    rw [updList_map_fst]
    exact hwf.keysNodup
  · exact hwf.genNodup
  · exact hwf.freeNodup
  · rintro ⟨x, pcx⟩ hp
    by_cases hx : x = w
    · subst hx
      obtain ⟨hpc, pcold, hold⟩ := mem_updPc_self.mp hp
      have heq : pcold = pc0 := pc_unique hwf.keysNodup hold hmem
      subst heq
      show x ∈ s.generateList ↔ isActivePc pcx = true
      rw [hpc, ha]
      exact hwf.genChar _ hold
    · exact hwf.genChar _ ((mem_updPc_of_ne hx).mp hp)
  · rintro ⟨x, pcx⟩ hp
    by_cases hx : x = w
    · subst hx
      obtain ⟨hpc, pcold, hold⟩ := mem_updPc_self.mp hp
      have heq : pcold = pc0 := pc_unique hwf.keysNodup hold hmem
      subst heq
      show x ∈ s.freeList ↔ isIdlePc pcx = true
      rw [hpc, hi]
      exact hwf.freeChar _ hold
    · exact hwf.freeChar _ ((mem_updPc_of_ne hx).mp hp)
  · intro x hmem2
    exact exists_pc_updPc _ (hwf.genSub x hmem2)
  · intro x hmem2
    exact exists_pc_updPc _ (hwf.freeSub x hmem2)

theorem wf_start {s : PoolState} (hwf : WF s) {w : Nat}
    (h : wpcOf s w = some WPc.start) :
    WF { (updPc s w WPc.firstGet) with generateList := s.generateList ++ [w] } := by
  have hmem := wpcOf_mem h
  have hng : w ∉ s.generateList := by
    have hch := hwf.genChar _ hmem
    simp [isActivePc] at hch
    exact hch
  have hnf : w ∉ s.freeList := by
    have hch := hwf.freeChar _ hmem
    simp [isIdlePc] at hch
    exact hch
  refine ⟨?_, ?_, ?_, ?_, ?_, ?_, ?_, ?_⟩
  · intro p hp
    obtain ⟨p0, hp0, rfl⟩ := List.mem_map.mp hp
    rw [updRow_fst]
    exact hwf.fresh p0 hp0
  · show ((s.workers.map (updRow w WPc.firstGet)).map Prod.fst).Nodup
    rw [updList_map_fst]
    exact hwf.keysNodup
  · refine hwf.genNodup.append (List.nodup_singleton w) ?_
    intro x hx hy
    simp only [List.mem_singleton] at hy
    subst hy
    exact hng hx
  · exact hwf.freeNodup
  · rintro ⟨x, pcx⟩ hp
    by_cases hx : x = w
    · subst hx
      show x ∈ s.generateList ++ [x] ↔ isActivePc pcx = true
      obtain ⟨hpc, pcold, hold⟩ := mem_updPc_self.mp hp
      subst hpc
      simp [isActivePc]
    · have hxm := (mem_updPc_of_ne hx).mp hp
      have hch := hwf.genChar _ hxm
      show x ∈ s.generateList ++ [w] ↔ isActivePc pcx = true
      simp only [List.mem_append, List.mem_singleton]
      constructor
      · rintro (h1 | h1)
        · exact hch.mp h1
        · exact absurd h1 hx
      · intro h1
        exact Or.inl (hch.mpr h1)
  · rintro ⟨x, pcx⟩ hp
    by_cases hx : x = w
    · subst hx
      obtain ⟨hpc, pcold, hold⟩ := mem_updPc_self.mp hp
      subst hpc
      show x ∈ s.freeList ↔ isIdlePc WPc.firstGet = true
      simp [isIdlePc, hnf]
    · exact hwf.freeChar _ ((mem_updPc_of_ne hx).mp hp)
  · intro x hxm
    rcases List.mem_append.mp hxm with h1 | h1
    · exact exists_pc_updPc _ (hwf.genSub x h1)
    · simp only [List.mem_singleton] at h1
      subst h1
      exact ⟨WPc.firstGet, mem_updPc_self.mpr ⟨rfl, _, hmem⟩⟩
  · intro x hxm
    exact exists_pc_updPc _ (hwf.freeSub x hxm)

theorem wf_enterIdle {s : PoolState} (hwf : WF s) {w : Nat}
    (h : wpcOf s w = some WPc.enterIdle) :
    WF { (updPc s w WPc.idleCheck) with freeList := s.freeList ++ [w] } := by
  have hmem := wpcOf_mem h
  have hnf : w ∉ s.freeList := by
    have hch := hwf.freeChar _ hmem
    simp [isIdlePc] at hch
    exact hch
  have hg : w ∈ s.generateList := (hwf.genChar _ hmem).mpr (by simp [isActivePc])
  refine ⟨?_, ?_, ?_, ?_, ?_, ?_, ?_, ?_⟩
  · intro p hp
    obtain ⟨p0, hp0, rfl⟩ := List.mem_map.mp hp
    rw [updRow_fst]
    exact hwf.fresh p0 hp0
  · show ((s.workers.map (updRow w WPc.idleCheck)).map Prod.fst).Nodup
    rw [updList_map_fst]
    exact hwf.keysNodup
  · exact hwf.genNodup
  · refine hwf.freeNodup.append (List.nodup_singleton w) ?_
    intro x hx hy
    simp only [List.mem_singleton] at hy
    subst hy
    exact hnf hx
  · rintro ⟨x, pcx⟩ hp
    by_cases hx : x = w
    · subst hx
      obtain ⟨hpc, pcold, hold⟩ := mem_updPc_self.mp hp
      subst hpc
      show x ∈ s.generateList ↔ isActivePc WPc.idleCheck = true
      simp [isActivePc, hg]
    · exact hwf.genChar _ ((mem_updPc_of_ne hx).mp hp)
  · rintro ⟨x, pcx⟩ hp
    by_cases hx : x = w
    · subst hx
      show x ∈ s.freeList ++ [x] ↔ isIdlePc pcx = true
      obtain ⟨hpc, pcold, hold⟩ := mem_updPc_self.mp hp
      subst hpc
      simp [isIdlePc]
    · have hxm := (mem_updPc_of_ne hx).mp hp
      have hch := hwf.freeChar _ hxm
      show x ∈ s.freeList ++ [w] ↔ isIdlePc pcx = true
      simp only [List.mem_append, List.mem_singleton]
      constructor
      · rintro (h1 | h1)
        · exact hch.mp h1
        · exact absurd h1 hx
      · intro h1
        exact Or.inl (hch.mpr h1)
  · intro x hxm
    exact exists_pc_updPc _ (hwf.genSub x hxm)
  · intro x hxm
    rcases List.mem_append.mp hxm with h1 | h1
    · exact exists_pc_updPc _ (hwf.freeSub x h1)
    · simp only [List.mem_singleton] at h1
      subst h1
      exact ⟨WPc.idleCheck, mem_updPc_self.mpr ⟨rfl, _, hmem⟩⟩

theorem wf_exitIdle {s : PoolState} (hwf : WF s) {w : Nat} {e : QItem}
    (h : wpcOf s w = some (WPc.exitIdle e)) :
    WF { (updPc s w (WPc.loopCheck e)) with freeList := s.freeList.erase w } := by
  have hmem := wpcOf_mem h
  have hg : w ∈ s.generateList := (hwf.genChar _ hmem).mpr (by simp [isActivePc])
  refine ⟨?_, ?_, ?_, ?_, ?_, ?_, ?_, ?_⟩
  · intro p hp
    obtain ⟨p0, hp0, rfl⟩ := List.mem_map.mp hp
    rw [updRow_fst]
    exact hwf.fresh p0 hp0
  · show ((s.workers.map (updRow w (WPc.loopCheck e))).map Prod.fst).Nodup
    rw [updList_map_fst]
    exact hwf.keysNodup
  · exact hwf.genNodup
  · exact hwf.freeNodup.erase w
  · rintro ⟨x, pcx⟩ hp
    by_cases hx : x = w
    · subst hx
      obtain ⟨hpc, pcold, hold⟩ := mem_updPc_self.mp hp
      subst hpc
      show x ∈ s.generateList ↔ isActivePc (WPc.loopCheck e) = true
      simp [isActivePc, hg]
    · exact hwf.genChar _ ((mem_updPc_of_ne hx).mp hp)
  · rintro ⟨x, pcx⟩ hp
    by_cases hx : x = w
    · subst hx
      obtain ⟨hpc, pcold, hold⟩ := mem_updPc_self.mp hp
      subst hpc
      show x ∈ s.freeList.erase x ↔ isIdlePc (WPc.loopCheck e) = true
      simp only [isIdlePc]
      rw [hwf.freeNodup.mem_erase_iff]
      simp
    · have hxm := (mem_updPc_of_ne hx).mp hp
      have hch := hwf.freeChar _ hxm
      show x ∈ s.freeList.erase w ↔ isIdlePc pcx = true
      rw [List.mem_erase_of_ne hx]
      exact hch
  · intro x hxm
    exact exists_pc_updPc _ (hwf.genSub x hxm)
  · intro x hxm
    exact exists_pc_updPc _ (hwf.freeSub x (List.erase_subset _ _ hxm))

theorem wf_removeSelf {s : PoolState} (hwf : WF s) {w : Nat}
    (h : wpcOf s w = some WPc.removeSelf) :
    WF { (updPc s w WPc.done) with generateList := s.generateList.erase w } := by
  have hmem := wpcOf_mem h
  have hnf : w ∉ s.freeList := by
    have hch := hwf.freeChar _ hmem
    simp [isIdlePc] at hch
    exact hch
  refine ⟨?_, ?_, ?_, ?_, ?_, ?_, ?_, ?_⟩
  · intro p hp
    obtain ⟨p0, hp0, rfl⟩ := List.mem_map.mp hp
    rw [updRow_fst]
    exact hwf.fresh p0 hp0
  · show ((s.workers.map (updRow w WPc.done)).map Prod.fst).Nodup
    rw [updList_map_fst]
    exact hwf.keysNodup
  · exact hwf.genNodup.erase w
  · exact hwf.freeNodup
  · rintro ⟨x, pcx⟩ hp
    by_cases hx : x = w
    · subst hx
      obtain ⟨hpc, pcold, hold⟩ := mem_updPc_self.mp hp
      subst hpc
      show x ∈ s.generateList.erase x ↔ isActivePc WPc.done = true
      simp only [isActivePc]
      rw [hwf.genNodup.mem_erase_iff]
      simp
    · have hxm := (mem_updPc_of_ne hx).mp hp
      have hch := hwf.genChar _ hxm
      show x ∈ s.generateList.erase w ↔ isActivePc pcx = true
      rw [List.mem_erase_of_ne hx]
      exact hch
  · rintro ⟨x, pcx⟩ hp
    by_cases hx : x = w
    · subst hx
      obtain ⟨hpc, pcold, hold⟩ := mem_updPc_self.mp hp
      subst hpc
      show x ∈ s.freeList ↔ isIdlePc WPc.done = true
      simp [isIdlePc, hnf]
    · exact hwf.freeChar _ ((mem_updPc_of_ne hx).mp hp)
  · intro x hxm
    exact exists_pc_updPc _ (hwf.genSub x (List.erase_subset _ _ hxm))
  · intro x hxm
    exact exists_pc_updPc _ (hwf.freeSub x hxm)

theorem wf_wStep {s s' : PoolState} {w : Nat} (hwf : WF s) (h : wStep s w = some s') :
    WF s' := by
  unfold wStep at h
  cases hpc : wpcOf s w with
  | none => rw [hpc] at h; cases h
  | some pc =>
      rw [hpc] at h
      cases pc with
      | start =>
          injection h with h
          subst h
          exact wf_start hwf hpc
      | firstGet =>
          cases hq : s.q with
          | nil => rw [hq] at h; cases h
          | cons e rest =>
              rw [hq] at h
              injection h with h
              subst h
              exact wf_of_eq (wf_updPc_flags hwf (WPc.loopCheck e) hpc rfl rfl) rfl rfl rfl rfl
      | loopCheck e =>
          cases e with
          | stop =>
              injection h with h
              subst h
              exact wf_updPc_flags hwf WPc.removeSelf hpc rfl rfl
          | task t =>
              injection h with h
              subst h
              exact wf_updPc_flags hwf (WPc.runTask t) hpc rfl rfl
      | runTask t =>
          injection h with h
          subst h
          exact wf_of_eq (wf_updPc_flags hwf WPc.enterIdle hpc rfl rfl) rfl rfl rfl rfl
      | enterIdle =>
          injection h with h
          subst h
          exact wf_enterIdle hwf hpc
      | idleCheck =>
          cases ht : s.terminal
          · rw [ht] at h
            simp only [Bool.false_eq_true, if_false] at h
            injection h with h
            subst h
            exact wf_updPc_flags hwf WPc.idleGet hpc rfl rfl
          · rw [ht] at h
            simp only [if_true] at h
            injection h with h
            subst h
            exact wf_updPc_flags hwf (WPc.exitIdle QItem.stop) hpc rfl rfl
      | idleGet =>
          cases hq : s.q with
          | nil => rw [hq] at h; cases h
          | cons e rest =>
              rw [hq] at h
              injection h with h
              subst h
              exact wf_of_eq (wf_updPc_flags hwf (WPc.exitIdle e) hpc rfl rfl) rfl rfl rfl rfl
      | exitIdle e =>
          injection h with h
          subst h
          exact wf_exitIdle hwf hpc
      | removeSelf =>
          injection h with h
          subst h
          exact wf_removeSelf hwf hpc
      | done => cases h

theorem wf_step {s s' : PoolState} {a : Act} (hwf : WF s) (h : step s a = some s') : WF s' := by
  cases a with
  | submit t =>
      simp only [step] at h
      split at h
      · injection h with h
        subst h
        simp only [runStep]
        split
        · exact hwf
        · split
          · exact wf_of_eq (wf_spawn hwf) rfl rfl rfl rfl
          · exact wf_of_eq hwf rfl rfl rfl rfl
      · cases h
  | close =>
      simp only [step] at h
      split at h
      · injection h with h
        subst h
        exact wf_of_eq hwf rfl rfl rfl rfl
      · cases h
  | termBegin =>
      simp only [step] at h
      split at h
      · injection h with h
        subst h
        exact wf_of_eq hwf rfl rfl rfl rfl
      · cases h
  | termLoopPut =>
      simp only [step] at h
      split at h
      · injection h with h
        subst h
        exact wf_of_eq hwf rfl rfl rfl rfl
      · cases h
  | termClear =>
      simp only [step] at h
      split at h
      · injection h with h
        subst h
        exact wf_of_eq hwf rfl rfl rfl rfl
      · cases h
  | wstep w => exact wf_wStep hwf h

theorem wf_runTrace {s s' : PoolState} {as : List Act} (hwf : WF s)
    (h : runTrace s as = some s') : WF s' := by
  induction as generalizing s with
  | nil =>
      unfold runTrace at h
      injection h with h
      subst h
      exact hwf
  | cons a as ih =>
      unfold runTrace at h
      cases hst : step s a with
      | none => rw [hst] at h; cases h
      | some s1 =>
          rw [hst] at h
          exact ih (wf_step hwf hst) h

/-- `free_list` only ever holds registered threads. -/
theorem wf_free_subset_gen {s : PoolState} (hwf : WF s) :
    ∀ w ∈ s.freeList, w ∈ s.generateList := by
  intro w hw
  obtain ⟨pc, hpc⟩ := hwf.freeSub w hw
  have hidle := (hwf.freeChar _ hpc).mp hw
  have hact : isActivePc pc = true := by
    cases pc <;> simp_all [isIdlePc, isActivePc]
  exact (hwf.genChar _ hpc).mpr hact

/-! ### Support lemmas for the claims -/

theorem updList_id_of_not_mem {l : List (Nat × WPc)} {w : Nat} (pc : WPc)
    (h : w ∉ l.map Prod.fst) : l.map (updRow w pc) = l := by
  induction l with
  | nil => rfl
  | cons p rest ih =>
      simp only [List.map_cons, List.mem_cons] at h
      push_neg at h
      rw [List.map_cons, updRow_of_ne pc (fun hh => h.1 hh.symm), ih h.2]

/-- Number of spawned-but-unregistered threads. -/
def countStart (l : List (Nat × WPc)) : Nat :=
  (l.filter (fun p => isStartPc p.2)).length

theorem countStart_cons (p : Nat × WPc) (l : List (Nat × WPc)) :
    countStart (p :: l) = (if isStartPc p.2 = true then 1 else 0) + countStart l := by
  simp only [countStart, List.filter_cons]
  split
  · simp [Nat.add_comm]
  · simp

theorem countStart_append (l1 l2 : List (Nat × WPc)) :
    countStart (l1 ++ l2) = countStart l1 + countStart l2 := by
  simp [countStart, List.filter_append]

theorem countStart_eq_zero {l : List (Nat × WPc)} (h : ∀ p ∈ l, isStartPc p.2 = false) :
    countStart l = 0 := by
  simp only [countStart, List.length_eq_zero]
  rw [List.filter_eq_nil_iff]
  intro p hp
  simp [h p hp]

theorem countStart_updList {l : List (Nat × WPc)} (hnd : (l.map Prod.fst).Nodup)
    {w : Nat} {pc0 : WPc} (hm : (w, pc0) ∈ l) (pc1 : WPc) :
    countStart (l.map (updRow w pc1)) + (if isStartPc pc0 = true then 1 else 0)
      = countStart l + (if isStartPc pc1 = true then 1 else 0) := by
  induction l with
  | nil => cases hm
  | cons p rest ih =>
      have hnd2 : p.1 ∉ rest.map Prod.fst ∧ (rest.map Prod.fst).Nodup := by
        rw [List.map_cons] at hnd
        exact List.nodup_cons.mp hnd
      rcases List.mem_cons.mp hm with h1 | h1
      · subst h1
        have hrest : rest.map (updRow w pc1) = rest :=
          updList_id_of_not_mem pc1 hnd2.1
        rw [List.map_cons, updRow_of_eq pc1 (show ((w, pc0) : Nat × WPc).1 = w from rfl), hrest, countStart_cons, countStart_cons]
        by_cases h0 : isStartPc pc0 = true <;> by_cases hh1 : isStartPc pc1 = true <;>
          simp only [h0, hh1, if_true, if_false] <;> omega
      · have hpw : ¬ p.1 = w := by
          intro hh
          exact hnd2.1 (hh ▸ List.mem_map.mpr ⟨(w, pc0), h1, rfl⟩)
        have ihh := ih hnd2.2 h1
        rw [List.map_cons, updRow_of_ne pc1 hpw, countStart_cons, countStart_cons]
        omega

theorem tasksThenStops_of_all_stops {q : List QItem} (h : ∀ it ∈ q, it = QItem.stop) :
    tasksThenStops q := by
  cases q with
  | nil => trivial
  | cons e r =>
      have he := h e (List.mem_cons_self _ _)
      subst he
      show ∀ it ∈ r, it = QItem.stop
      exact fun it hit => h it (List.mem_cons_of_mem _ hit)

theorem tasksThenStops_append_stops {q : List QItem} (hts : tasksThenStops q) (n : Nat) :
    tasksThenStops (q ++ List.replicate n QItem.stop) := by
  induction q with
  | nil =>
      simp only [List.nil_append]
      exact tasksThenStops_of_all_stops (fun it hit => List.eq_of_mem_replicate hit)
  | cons e r ih =>
      cases e with
      | task t =>
          show tasksThenStops (r ++ List.replicate n QItem.stop)
          exact ih hts
      | stop =>
          show ∀ it ∈ r ++ List.replicate n QItem.stop, it = QItem.stop
          intro it hit
          rcases List.mem_append.mp hit with h1 | h1
          · exact hts it h1
          · exact List.eq_of_mem_replicate h1

theorem tasksThenStops_tail {e : QItem} {r : List QItem} (h : tasksThenStops (e :: r)) :
    tasksThenStops r := by
  cases e with
  | task t => exact h
  | stop => exact tasksThenStops_of_all_stops h

theorem tasksThenStops_head_stop {q : List QItem} (h : tasksThenStops q)
    (hh : q.head? = some QItem.stop) : ∀ it ∈ q, it = QItem.stop := by
  cases q with
  | nil => intro it hit; cases hit
  | cons e r =>
      injection hh with hh
      subst hh
      intro it hit
      rcases List.mem_cons.mp hit with h1 | h1
      · exact h1
      · exact h it h1

/-- Exhaustive characterization of one system step. -/
theorem step_cases {s s' : PoolState} {a : Act} (h : step s a = some s') :
    (∃ t, a = Act.submit t ∧ s.cpc = CPc.idle ∧ s' = runStep s t) ∨
    (a = Act.close ∧ s.cpc = CPc.idle ∧ s' = closeStep s) ∨
    (a = Act.termBegin ∧ s.cpc = CPc.idle ∧
      s' = { s with terminal := true, cpc := CPc.terming }) ∨
    (a = Act.termLoopPut ∧ s.cpc = CPc.terming ∧ s.generateList ≠ [] ∧
      s' = { s with q := s.q ++ [QItem.stop] }) ∨
    (a = Act.termClear ∧ s.cpc = CPc.terming ∧ s.generateList = [] ∧
      s' = { s with q := [], cpc := CPc.idle }) ∨
    (∃ w, a = Act.wstep w ∧ wStep s w = some s') := by
  cases a with
  | submit t =>
      simp only [step] at h
      by_cases hc : s.cpc = CPc.idle
      · rw [if_pos hc] at h
        exact Or.inl ⟨t, rfl, hc, (Option.some.inj h).symm⟩
      · rw [if_neg hc] at h
        cases h
  | close =>
      simp only [step] at h
      by_cases hc : s.cpc = CPc.idle
      · rw [if_pos hc] at h
        exact Or.inr (Or.inl ⟨rfl, hc, (Option.some.inj h).symm⟩)
      · rw [if_neg hc] at h
        cases h
  | termBegin =>
      simp only [step] at h
      by_cases hc : s.cpc = CPc.idle
      · rw [if_pos hc] at h
        exact Or.inr (Or.inr (Or.inl ⟨rfl, hc, (Option.some.inj h).symm⟩))
      · rw [if_neg hc] at h
        cases h
  | termLoopPut =>
      simp only [step] at h
      by_cases hc : s.cpc = CPc.terming ∧ s.generateList ≠ []
      · rw [if_pos hc] at h
        exact Or.inr (Or.inr (Or.inr (Or.inl ⟨rfl, hc.1, hc.2, (Option.some.inj h).symm⟩)))
      · rw [if_neg hc] at h
        cases h
  | termClear =>
      simp only [step] at h
      by_cases hc : s.cpc = CPc.terming ∧ s.generateList = []
      · rw [if_pos hc] at h
        exact Or.inr (Or.inr (Or.inr (Or.inr (Or.inl
          ⟨rfl, hc.1, hc.2, (Option.some.inj h).symm⟩))))
      · rw [if_neg hc] at h
        cases h
  | wstep w =>
      exact Or.inr (Or.inr (Or.inr (Or.inr (Or.inr ⟨w, rfl, h⟩))))

/-- Exhaustive characterization of one worker statement. -/
theorem wStep_cases {s s' : PoolState} {w : Nat} (h : wStep s w = some s') :
    (wpcOf s w = some WPc.start ∧
      s' = { (updPc s w WPc.firstGet) with generateList := s.generateList ++ [w] }) ∨
    (∃ e rest, wpcOf s w = some WPc.firstGet ∧ s.q = e :: rest ∧
      s' = { (updPc s w (WPc.loopCheck e)) with q := rest }) ∨
    (wpcOf s w = some (WPc.loopCheck QItem.stop) ∧ s' = updPc s w WPc.removeSelf) ∨
    (∃ t, wpcOf s w = some (WPc.loopCheck (QItem.task t)) ∧
      s' = updPc s w (WPc.runTask t)) ∨
    (∃ t, wpcOf s w = some (WPc.runTask t) ∧
      s' = { (updPc s w WPc.enterIdle) with log := s.log ++ taskEvents t }) ∨
    (wpcOf s w = some WPc.enterIdle ∧
      s' = { (updPc s w WPc.idleCheck) with freeList := s.freeList ++ [w] }) ∨
    (wpcOf s w = some WPc.idleCheck ∧ s.terminal = true ∧
      s' = updPc s w (WPc.exitIdle QItem.stop)) ∨
    (wpcOf s w = some WPc.idleCheck ∧ s.terminal = false ∧
      s' = updPc s w WPc.idleGet) ∨
    (∃ e rest, wpcOf s w = some WPc.idleGet ∧ s.q = e :: rest ∧
      s' = { (updPc s w (WPc.exitIdle e)) with q := rest }) ∨
    (∃ e, wpcOf s w = some (WPc.exitIdle e) ∧
      s' = { (updPc s w (WPc.loopCheck e)) with freeList := s.freeList.erase w }) ∨
    (wpcOf s w = some WPc.removeSelf ∧
      s' = { (updPc s w WPc.done) with generateList := s.generateList.erase w }) := by
  unfold wStep at h
  cases hpc : wpcOf s w with
  | none => rw [hpc] at h; cases h
  | some pc =>
      rw [hpc] at h
      cases pc with
      | start =>
          exact Or.inl ⟨rfl, (Option.some.inj h).symm⟩
      | firstGet =>
          cases hq : s.q with
          | nil => rw [hq] at h; cases h
          | cons e rest =>
              rw [hq] at h
              exact Or.inr (Or.inl ⟨e, rest, rfl, rfl, (Option.some.inj h).symm⟩)
      | loopCheck e =>
          cases e with
          | stop =>
              exact Or.inr (Or.inr (Or.inl ⟨rfl, (Option.some.inj h).symm⟩))
          | task t =>
              exact Or.inr (Or.inr (Or.inr (Or.inl ⟨t, rfl, (Option.some.inj h).symm⟩)))
      | runTask t =>
          exact Or.inr (Or.inr (Or.inr (Or.inr (Or.inl
            ⟨t, rfl, (Option.some.inj h).symm⟩))))
      | enterIdle =>
          exact Or.inr (Or.inr (Or.inr (Or.inr (Or.inr (Or.inl
            ⟨rfl, (Option.some.inj h).symm⟩)))))
      | idleCheck =>
          cases ht : s.terminal
          · rw [ht] at h
            simp only [Bool.false_eq_true, if_false] at h
            exact Or.inr (Or.inr (Or.inr (Or.inr (Or.inr (Or.inr (Or.inr (Or.inl
              ⟨rfl, rfl, (Option.some.inj h).symm⟩)))))))
          · rw [ht] at h
            simp only [if_true] at h
            exact Or.inr (Or.inr (Or.inr (Or.inr (Or.inr (Or.inr (Or.inl
              ⟨rfl, rfl, (Option.some.inj h).symm⟩))))))
      | idleGet =>
          cases hq : s.q with
          | nil => rw [hq] at h; cases h
          | cons e rest =>
              rw [hq] at h
              exact Or.inr (Or.inr (Or.inr (Or.inr (Or.inr (Or.inr (Or.inr (Or.inr (Or.inl
                ⟨e, rest, rfl, rfl, (Option.some.inj h).symm⟩))))))))
      | exitIdle e =>
          exact Or.inr (Or.inr (Or.inr (Or.inr (Or.inr (Or.inr (Or.inr (Or.inr (Or.inr
            (Or.inl ⟨e, rfl, (Option.some.inj h).symm⟩)))))))))
      | removeSelf =>
          exact Or.inr (Or.inr (Or.inr (Or.inr (Or.inr (Or.inr (Or.inr (Or.inr (Or.inr
            (Or.inr ⟨rfl, (Option.some.inj h).symm⟩)))))))))
      | done => cases h

/-! ### `run` unfolding helpers -/

theorem runStep_of_cancel {s : PoolState} (t : Task) (h : s.cancel = true) :
    runStep s t = s := by
  simp [runStep, h]

theorem runStep_spawn {s : PoolState} (t : Task) (hc : s.cancel = false)
    (hsp : s.freeList.length = 0 ∧ (s.generateList.length : Int) < s.maxNum) :
    runStep s t = { spawnWorker s with q := s.q ++ [QItem.task t] } := by
  simp [runStep, hc, hsp, spawnWorker]

theorem runStep_no_spawn {s : PoolState} (t : Task) (hc : s.cancel = false)
    (hsp : ¬ (s.freeList.length = 0 ∧ (s.generateList.length : Int) < s.maxNum)) :
    runStep s t = { s with q := s.q ++ [QItem.task t] } := by
  simp only [runStep, hc, Bool.false_eq_true, if_false]
  rw [if_neg hsp, hc]

theorem runStep_generateList (s : PoolState) (t : Task) :
    (runStep s t).generateList = s.generateList := by
  by_cases hc : s.cancel = true
  · rw [runStep_of_cancel t hc]
  · rw [Bool.not_eq_true] at hc
    by_cases hsp : s.freeList.length = 0 ∧ (s.generateList.length : Int) < s.maxNum
    · rw [runStep_spawn t hc hsp]
      rfl
    · rw [runStep_no_spawn t hc hsp]

theorem wpcOf_spawn_cases {s : PoolState} {w : Nat} {pc : WPc}
    (h : wpcOf (spawnWorker s) w = some pc) :
    wpcOf s w = some pc ∨ (w = s.nextId ∧ pc = WPc.start) := by
  unfold wpcOf spawnWorker at h
  simp only [List.find?_append] at h
  cases hf : s.workers.find? (isRow w) with
  | some pr =>
      rw [hf, Option.or] at h
      left
      unfold wpcOf
      rw [hf]
      exact h
  | none =>
      rw [hf, Option.or] at h
      by_cases hw : isRow w (s.nextId, WPc.start) = true
      · rw [List.find?_cons_of_pos _ hw] at h
        right
        refine ⟨(isRow_iff.mp hw).symm, ?_⟩
        simpa using h.symm
      · rw [List.find?_cons_of_neg _ hw] at h
        cases h

/-! ### No callback ever fires for an absent task id -/

theorem eventTid_taskEvents {t : Task} {e : Event} (h : e ∈ taskEvents t) :
    eventTid e = t.tid := by
  simp only [taskEvents] at h
  rcases List.mem_cons.mp h with h1 | h1
  · subst h1
    rfl
  · split at h1
    · split at h1 <;>
        · simp only [List.mem_singleton] at h1
          subst h1
          rfl
    · cases h1

theorem tidAbsent_updPc {tid : Nat} {s : PoolState} {w : Nat} {pcN : WPc}
    (h : ∀ p ∈ s.workers, pcTid p.2 ≠ some tid) (hn : pcTid pcN ≠ some tid) :
    ∀ p ∈ (updPc s w pcN).workers, pcTid p.2 ≠ some tid := by
  rintro ⟨x, pcx⟩ hp
  obtain ⟨p0, hp0, hup⟩ := List.mem_map.mp hp
  by_cases hx : p0.1 = w
  · rw [updRow_of_eq pcN hx] at hup
    have h2 : pcN = pcx := congrArg Prod.snd hup
    show pcTid pcx ≠ some tid
    rw [← h2]
    exact hn
  · rw [updRow_of_ne pcN hx] at hup
    have := h p0 hp0
    rw [hup] at this
    exact this

theorem tidAbsent_step {tid : Nat} {s s' : PoolState} {a : Act}
    (habs : tidAbsent tid s) (h : step s a = some s')
    (hsub : ∀ t, a = Act.submit t → t.tid ≠ tid) :
    tidAbsent tid s' ∧ ∀ e ∈ s'.log, e ∈ s.log ∨ eventTid e ≠ tid := by
  obtain ⟨hq, hw⟩ := habs
  rcases step_cases h with ⟨t, rfl, hc, rfl⟩ | ⟨rfl, hc, rfl⟩ | ⟨rfl, hc, rfl⟩ |
    ⟨rfl, hc, hne, rfl⟩ | ⟨rfl, hc, hge, rfl⟩ | ⟨w, rfl, hws⟩
  · -- Submit: the new task has a different id.
    have htid : t.tid ≠ tid := hsub t rfl
    by_cases hcan : s.cancel = true
    · rw [runStep_of_cancel t hcan]
      exact ⟨⟨hq, hw⟩, fun e he => Or.inl he⟩
    · rw [Bool.not_eq_true] at hcan
      have hqpart : ∀ it ∈ s.q ++ [QItem.task t], itemTid it ≠ some tid := by
        intro it hit
        rcases List.mem_append.mp hit with h1 | h1
        · exact hq it h1
        · simp only [List.mem_singleton] at h1
          subst h1
          simp [itemTid, htid]
      by_cases hsp : s.freeList.length = 0 ∧ (s.generateList.length : Int) < s.maxNum
      · rw [runStep_spawn t hcan hsp]
        refine ⟨⟨hqpart, ?_⟩, fun e he => Or.inl he⟩
        intro p hp
        rcases List.mem_append.mp hp with h1 | h1
        · exact hw p h1
        · simp only [List.mem_singleton] at h1
          subst h1
          simp [pcTid]
      · rw [runStep_no_spawn t hcan hsp]
        exact ⟨⟨hqpart, hw⟩, fun e he => Or.inl he⟩
  · -- Close puts only StopEvents.
    refine ⟨⟨?_, hw⟩, fun e he => Or.inl he⟩
    intro it hit
    rcases List.mem_append.mp hit with h1 | h1
    · exact hq it h1
    · rw [List.eq_of_mem_replicate h1]
      simp [itemTid]
  · exact ⟨⟨hq, hw⟩, fun e he => Or.inl he⟩
  · refine ⟨⟨?_, hw⟩, fun e he => Or.inl he⟩
    intro it hit
    rcases List.mem_append.mp hit with h1 | h1
    · exact hq it h1
    · simp only [List.mem_singleton] at h1
      subst h1
      simp [itemTid]
  · exact ⟨⟨fun it hit => absurd hit (List.not_mem_nil it), hw⟩, fun e he => Or.inl he⟩
  · -- One worker statement.
    rcases wStep_cases hws with ⟨hpc, rfl⟩ | ⟨e, rest, hpc, hqe, rfl⟩ | ⟨hpc, rfl⟩ |
      ⟨t, hpc, rfl⟩ | ⟨t, hpc, rfl⟩ | ⟨hpc, rfl⟩ | ⟨hpc, ht, rfl⟩ | ⟨hpc, ht, rfl⟩ |
      ⟨e, rest, hpc, hqe, rfl⟩ | ⟨e, hpc, rfl⟩ | ⟨hpc, rfl⟩
    · exact ⟨⟨hq, tidAbsent_updPc hw (by simp [pcTid])⟩, fun e he => Or.inl he⟩
    · -- first q.get(): the dequeued item is carried by the worker.
      rw [hqe] at hq
      refine ⟨⟨fun it hit => hq it (List.mem_cons_of_mem _ hit),
        tidAbsent_updPc hw ?_⟩, fun e he => Or.inl he⟩
      have he := hq e (List.mem_cons_self _ _)
      cases e with
      | task t2 => simpa [pcTid, itemTid] using he
      | stop => simp [pcTid]
    · exact ⟨⟨hq, tidAbsent_updPc hw (by simp [pcTid])⟩, fun e he => Or.inl he⟩
    · -- StopEvent test passed on a task: the worker keeps holding it.
      have hold := hw _ (wpcOf_mem hpc)
      exact ⟨⟨hq, tidAbsent_updPc hw (by simpa [pcTid] using hold)⟩,
        fun e he => Or.inl he⟩
    · -- Task body: the produced events carry the executing task's id.
      have hold := hw _ (wpcOf_mem hpc)
      have htid : t.tid ≠ tid := by simpa [pcTid] using hold
      refine ⟨⟨hq, tidAbsent_updPc hw (by simp [pcTid])⟩, ?_⟩
      intro e he
      rcases List.mem_append.mp he with h1 | h1
      · exact Or.inl h1
      · exact Or.inr (by rw [eventTid_taskEvents h1]; exact htid)
    · exact ⟨⟨hq, tidAbsent_updPc hw (by simp [pcTid])⟩, fun e he => Or.inl he⟩
    · exact ⟨⟨hq, tidAbsent_updPc hw (by simp [pcTid])⟩, fun e he => Or.inl he⟩
    · exact ⟨⟨hq, tidAbsent_updPc hw (by simp [pcTid])⟩, fun e he => Or.inl he⟩
    · -- idle q.get().
      rw [hqe] at hq
      refine ⟨⟨fun it hit => hq it (List.mem_cons_of_mem _ hit),
        tidAbsent_updPc hw ?_⟩, fun e he => Or.inl he⟩
      have he := hq e (List.mem_cons_self _ _)
      cases e with
      | task t2 => simpa [pcTid, itemTid] using he
      | stop => simp [pcTid]
    · -- leave worker_state: the held item stays held.
      have hold := hw _ (wpcOf_mem hpc)
      refine ⟨⟨hq, tidAbsent_updPc hw ?_⟩, fun e he => Or.inl he⟩
      cases e with
      | task t2 => simpa [pcTid] using hold
      | stop => simp [pcTid]
    · exact ⟨⟨hq, tidAbsent_updPc hw (by simp [pcTid])⟩, fun e he => Or.inl he⟩

theorem tidAbsent_runTrace {tid : Nat} {s s' : PoolState} {as : List Act}
    (habs : tidAbsent tid s)
    (hsub : ∀ a ∈ as, ∀ t, a = Act.submit t → t.tid ≠ tid)
    (h : runTrace s as = some s') :
    tidAbsent tid s' ∧ ∀ e ∈ s'.log, e ∈ s.log ∨ eventTid e ≠ tid := by
  induction as generalizing s with
  | nil =>
      unfold runTrace at h
      injection h with h
      subst h
      exact ⟨habs, fun e he => Or.inl he⟩
  | cons a as ih =>
      unfold runTrace at h
      cases hst : step s a with
      | none => rw [hst] at h; cases h
      | some s1 =>
          rw [hst] at h
          have h1 := tidAbsent_step habs hst (hsub a (List.mem_cons_self _ _))
          have h2 := ih h1.1 (fun a' ha' => hsub a' (List.mem_cons_of_mem _ ha')) h
          refine ⟨h2.1, fun e he => ?_⟩
          rcases h2.2 e he with hin | hout
          · rcases h1.2 e hin with hin2 | hout2
            · exact Or.inl hin2
            · exact Or.inr hout2
          · exact Or.inr hout

/-! ### A finished worker stays finished and deregistered -/

theorem doneOut_step {s s' : PoolState} {w : Nat} {a : Act}
    (hd : wpcOf s w = some WPc.done) (hg : w ∉ s.generateList)
    (h : step s a = some s') :
    wpcOf s' w = some WPc.done ∧ w ∉ s'.generateList := by
  rcases step_cases h with ⟨t, rfl, hc, rfl⟩ | ⟨rfl, hc, rfl⟩ | ⟨rfl, hc, rfl⟩ |
    ⟨rfl, hc, hne, rfl⟩ | ⟨rfl, hc, hge, rfl⟩ | ⟨w', rfl, hws⟩
  · by_cases hcan : s.cancel = true
    · rw [runStep_of_cancel t hcan]
      exact ⟨hd, hg⟩
    · rw [Bool.not_eq_true] at hcan
      by_cases hsp : s.freeList.length = 0 ∧ (s.generateList.length : Int) < s.maxNum
      · rw [runStep_spawn t hcan hsp]
        exact ⟨wpcOf_spawn_of_some hd, hg⟩
      · rw [runStep_no_spawn t hcan hsp]
        exact ⟨hd, hg⟩
  · exact ⟨hd, hg⟩
  · exact ⟨hd, hg⟩
  · exact ⟨hd, hg⟩
  · exact ⟨hd, hg⟩
  · by_cases hww : w' = w
    · subst hww
      unfold wStep at hws
      rw [hd] at hws
      cases hws
    · have hww2 : w ≠ w' := fun hh => hww hh.symm
      rcases wStep_cases hws with ⟨hpc, rfl⟩ | ⟨e, rest, hpc, hqe, rfl⟩ | ⟨hpc, rfl⟩ |
        ⟨t, hpc, rfl⟩ | ⟨t, hpc, rfl⟩ | ⟨hpc, rfl⟩ | ⟨hpc, ht, rfl⟩ | ⟨hpc, ht, rfl⟩ |
        ⟨e, rest, hpc, hqe, rfl⟩ | ⟨e, hpc, rfl⟩ | ⟨hpc, rfl⟩
      · refine ⟨(wpcOf_updPc_ne WPc.firstGet hww2).trans hd, ?_⟩
        intro hmem
        rcases List.mem_append.mp hmem with h1 | h1
        · exact hg h1
        · simp only [List.mem_singleton] at h1
          exact hww2 h1
      · exact ⟨(wpcOf_updPc_ne (WPc.loopCheck e) hww2).trans hd, hg⟩
      · exact ⟨(wpcOf_updPc_ne WPc.removeSelf hww2).trans hd, hg⟩
      · exact ⟨(wpcOf_updPc_ne (WPc.runTask t) hww2).trans hd, hg⟩
      · exact ⟨(wpcOf_updPc_ne WPc.enterIdle hww2).trans hd, hg⟩
      · exact ⟨(wpcOf_updPc_ne WPc.idleCheck hww2).trans hd, hg⟩
      · exact ⟨(wpcOf_updPc_ne (WPc.exitIdle QItem.stop) hww2).trans hd, hg⟩
      · exact ⟨(wpcOf_updPc_ne WPc.idleGet hww2).trans hd, hg⟩
      · exact ⟨(wpcOf_updPc_ne (WPc.exitIdle e) hww2).trans hd, hg⟩
      · exact ⟨(wpcOf_updPc_ne (WPc.loopCheck e) hww2).trans hd, hg⟩
      · refine ⟨(wpcOf_updPc_ne WPc.done hww2).trans hd, ?_⟩
        intro hmem
        exact hg (List.erase_subset _ _ hmem)

theorem doneOut_runTrace {s s' : PoolState} {w : Nat} {as : List Act}
    (hd : wpcOf s w = some WPc.done) (hg : w ∉ s.generateList)
    (h : runTrace s as = some s') :
    wpcOf s' w = some WPc.done ∧ w ∉ s'.generateList := by
  induction as generalizing s with
  | nil =>
      unfold runTrace at h
      injection h with h
      subst h
      exact ⟨hd, hg⟩
  | cons a as ih =>
      unfold runTrace at h
      cases hst : step s a with
      | none => rw [hst] at h; cases h
      | some s1 =>
          rw [hst] at h
          have h1 := doneOut_step hd hg hst
          exact ih h1.1 h1.2 h

/-! ### Worker-count bound under registration-safe traces -/

/-- Registered workers plus spawned-but-unregistered workers never
exceed `max(max_num, 0)`.  This is the inductive strengthening of
`|generate_list| ≤ max_num`; it is preserved only when `run` is never
called while a spawned thread has not yet registered itself (see
`submitGuard`) — without that restriction the check at line 49 races
with the registration at line 68. -/
def Bnd (s : PoolState) : Prop :=
  (s.generateList.length + countStart s.workers : Int) ≤ max s.maxNum 0

theorem countStart_updPc_eq {s : PoolState} {w : Nat} {pc0 : WPc} (pc1 : WPc)
    (hnd : (s.workers.map Prod.fst).Nodup) (hm : wpcOf s w = some pc0)
    (h0 : isStartPc pc0 = false) (h1 : isStartPc pc1 = false) :
    countStart ((updPc s w pc1).workers) = countStart s.workers := by
  have hkey := countStart_updList hnd (wpcOf_mem hm) pc1
  rw [h0, h1] at hkey
  simpa using hkey

theorem bnd_step {s s' : PoolState} {a : Act} (hwf : WF s) (hb : Bnd s)
    (hg : submitGuard s a) (h : step s a = some s') : Bnd s' := by
  rcases step_cases h with ⟨t, rfl, hc, rfl⟩ | ⟨rfl, hc, rfl⟩ | ⟨rfl, hc, rfl⟩ |
    ⟨rfl, hc, hne, rfl⟩ | ⟨rfl, hc, hge, rfl⟩ | ⟨w, rfl, hws⟩
  · -- run: spawning is guarded by the line 49 test.
    by_cases hcan : s.cancel = true
    · rw [runStep_of_cancel t hcan]
      exact hb
    · rw [Bool.not_eq_true] at hcan
      by_cases hsp : s.freeList.length = 0 ∧ (s.generateList.length : Int) < s.maxNum
      · rw [runStep_spawn t hcan hsp]
        have hzero : countStart s.workers = 0 := countStart_eq_zero hg
        show (s.generateList.length +
            countStart (s.workers ++ [(s.nextId, WPc.start)]) : Int) ≤ max s.maxNum 0
        rw [countStart_append]
        have hone : countStart [(s.nextId, WPc.start)] = 1 := by
          simp [countStart, List.filter_cons, isStartPc]
        have hmax : s.maxNum ≤ max s.maxNum 0 := le_max_left _ _
        have hlt := hsp.2
        rw [hzero, hone]
        omega
      · rw [runStep_no_spawn t hcan hsp]
        exact hb
  · exact hb
  · exact hb
  · exact hb
  · exact hb
  · rcases wStep_cases hws with ⟨hpc, rfl⟩ | ⟨e, rest, hpc, hqe, rfl⟩ | ⟨hpc, rfl⟩ |
      ⟨t, hpc, rfl⟩ | ⟨t, hpc, rfl⟩ | ⟨hpc, rfl⟩ | ⟨hpc, ht, rfl⟩ | ⟨hpc, ht, rfl⟩ |
      ⟨e, rest, hpc, hqe, rfl⟩ | ⟨e, hpc, rfl⟩ | ⟨hpc, rfl⟩
    · -- registration: one unregistered thread becomes one list entry.
      have hkey := countStart_updList hwf.keysNodup (wpcOf_mem hpc) WPc.firstGet
      simp [isStartPc] at hkey
      show ((s.generateList ++ [w]).length +
          countStart (s.workers.map (updRow w WPc.firstGet)) : Int) ≤ max s.maxNum 0
      rw [List.length_append]
      unfold Bnd at hb
      simp only [List.length_singleton]
      omega
    · show (s.generateList.length +
          countStart ((updPc s w (WPc.loopCheck e)).workers) : Int) ≤ max s.maxNum 0
      rw [countStart_updPc_eq (WPc.loopCheck e) hwf.keysNodup hpc rfl rfl]
      exact hb
    · show (s.generateList.length +
          countStart ((updPc s w WPc.removeSelf).workers) : Int) ≤ max s.maxNum 0
      rw [countStart_updPc_eq WPc.removeSelf hwf.keysNodup hpc rfl rfl]
      exact hb
    · show (s.generateList.length +
          countStart ((updPc s w (WPc.runTask t)).workers) : Int) ≤ max s.maxNum 0
      rw [countStart_updPc_eq (WPc.runTask t) hwf.keysNodup hpc rfl rfl]
      exact hb
    · show (s.generateList.length +
          countStart ((updPc s w WPc.enterIdle).workers) : Int) ≤ max s.maxNum 0
      rw [countStart_updPc_eq WPc.enterIdle hwf.keysNodup hpc rfl rfl]
      exact hb
    · show (s.generateList.length +
          countStart ((updPc s w WPc.idleCheck).workers) : Int) ≤ max s.maxNum 0
      rw [countStart_updPc_eq WPc.idleCheck hwf.keysNodup hpc rfl rfl]
      exact hb
    · show (s.generateList.length +
          countStart ((updPc s w (WPc.exitIdle QItem.stop)).workers) : Int) ≤ max s.maxNum 0
      rw [countStart_updPc_eq (WPc.exitIdle QItem.stop) hwf.keysNodup hpc rfl rfl]
      exact hb
    · show (s.generateList.length +
          countStart ((updPc s w WPc.idleGet).workers) : Int) ≤ max s.maxNum 0
      rw [countStart_updPc_eq WPc.idleGet hwf.keysNodup hpc rfl rfl]
      exact hb
    · show (s.generateList.length +
          countStart ((updPc s w (WPc.exitIdle e)).workers) : Int) ≤ max s.maxNum 0
      rw [countStart_updPc_eq (WPc.exitIdle e) hwf.keysNodup hpc rfl rfl]
      exact hb
    · show (s.generateList.length +
          countStart ((updPc s w (WPc.loopCheck e)).workers) : Int) ≤ max s.maxNum 0
      rw [countStart_updPc_eq (WPc.loopCheck e) hwf.keysNodup hpc rfl rfl]
      exact hb
    · -- deregistration at line 94.
      have hmem := wpcOf_mem hpc
      have hgm : w ∈ s.generateList := (hwf.genChar _ hmem).mpr (by simp [isActivePc])
      have hlen : (s.generateList.erase w).length = s.generateList.length - 1 :=
        List.length_erase_of_mem hgm
      have hpos : 0 < s.generateList.length := List.length_pos.mpr (by
        intro hh
        rw [hh] at hgm
        cases hgm)
      show ((s.generateList.erase w).length +
          countStart ((updPc s w WPc.done).workers) : Int) ≤ max s.maxNum 0
      rw [countStart_updPc_eq WPc.done hwf.keysNodup hpc rfl rfl, hlen]
      unfold Bnd at hb
      omega

theorem bnd_runTrace {s s' : PoolState} {as : List Act} (hwf : WF s) (hb : Bnd s)
    (hss : SubmitSafe s as) (h : runTrace s as = some s') : Bnd s' := by
  induction as generalizing s with
  | nil =>
      unfold runTrace at h
      injection h with h
      subst h
      exact hb
  | cons a as ih =>
      unfold runTrace at h
      unfold SubmitSafe at hss
      cases hst : step s a with
      | none => rw [hst] at h; cases h
      | some s1 =>
          rw [hst] at h
          rw [hst] at hss
          exact ih (wf_step hwf hst) (bnd_step hwf hb hss.1 hst) hss.2 h

/-! ### Concrete data for counterexamples and witnesses -/

/-- A sample task whose function returns 7 and whose callback behaves. -/
def tA : Task := ⟨0, false, 7, true, false⟩

/-- A sample task whose function raises and whose callback also raises. -/
def tB : Task := ⟨1, true, 0, true, true⟩

/-- State reached from `ThreadPool(1)` by `terminate()` followed by
`run(...)`: the flag `terminal` is set but `cancel` is not, and the task
was enqueued and a thread spawned. -/
def c2State : PoolState :=
  { q := [QItem.task tA], maxNum := 1, cancel := false, terminal := true,
    generateList := [], freeList := [], workers := [(0, WPc.start)], nextId := 1,
    cpc := CPc.idle, log := [] }

/-- Mid-`terminate` state: one registered worker, two StopEvents already
put by the `while self.generate_list` loop. -/
def c1StateMid : PoolState :=
  { q := [QItem.task tA, QItem.stop, QItem.stop], maxNum := 1, cancel := false,
    terminal := true, generateList := [0], freeList := [],
    workers := [(0, WPc.firstGet)], nextId := 1, cpc := CPc.terming, log := [] }

/-- State at the moment `terminate()` returns: the queue has been
cleared, no StopSignal remains visible. -/
def c1StateEnd : PoolState :=
  { q := [], maxNum := 1, cancel := false, terminal := true, generateList := [],
    freeList := [], workers := [(0, WPc.done)], nextId := 1, cpc := CPc.idle,
    log := [Event.exec 0 true (some 7), Event.cb 0 true (some 7)] }

/-- `c1StateEnd` after one more `run` call (`cancel` was never set). -/
def c1WitEnd : PoolState :=
  { q := [QItem.task tA], maxNum := 1, cancel := false, terminal := true,
    generateList := [], freeList := [], workers := [(0, WPc.done), (1, WPc.start)],
    nextId := 2, cpc := CPc.idle, log := [Event.exec 0 true (some 7),
    Event.cb 0 true (some 7)] }

/-- A reachable state with one registered worker blocked in its first
`q.get()` (line 70), hence not in `free_list`. -/
def c10State : PoolState :=
  { q := [QItem.task tA], maxNum := 2, cancel := false, terminal := false,
    generateList := [0], freeList := [], workers := [(0, WPc.firstGet)], nextId := 1,
    cpc := CPc.idle, log := [] }

/-- `closeStep c10State` after the worker dequeued the head task. -/
def c4S2 : PoolState :=
  { q := [QItem.stop, QItem.stop], maxNum := 2, cancel := true, terminal := false,
    generateList := [0], freeList := [], workers := [(0, WPc.loopCheck (QItem.task tA))],
    nextId := 1, cpc := CPc.idle, log := [] }

/-- A reachable state with the worker inside the task body of `tB`. -/
def c5State : PoolState :=
  { q := [], maxNum := 1, cancel := false, terminal := false, generateList := [0],
    freeList := [], workers := [(0, WPc.runTask tB)], nextId := 1, cpc := CPc.idle,
    log := [] }

/-- A reachable state with the worker at `generate_list.remove` (line 94). -/
def c6Pre : PoolState :=
  { q := [QItem.stop, QItem.stop], maxNum := 1, cancel := false, terminal := true,
    generateList := [0], freeList := [], workers := [(0, WPc.removeSelf)], nextId := 1,
    cpc := CPc.terming, log := [Event.exec 0 true (some 7), Event.cb 0 true (some 7)] }

/-- `c6Pre` after the removal step. -/
def c6Post : PoolState :=
  { q := [QItem.stop, QItem.stop], maxNum := 1, cancel := false, terminal := true,
    generateList := [], freeList := [], workers := [(0, WPc.done)], nextId := 1,
    cpc := CPc.terming, log := [Event.exec 0 true (some 7), Event.cb 0 true (some 7)] }

/-- Over-spawned state of a `ThreadPool(1)`: two quick `run` calls
raced the self-registration at line 68, so two threads exist. -/
def c7State : PoolState :=
  { q := [QItem.task tA, QItem.task tB], maxNum := 1, cancel := false,
    terminal := false, generateList := [0, 1], freeList := [],
    workers := [(0, WPc.firstGet), (1, WPc.firstGet)], nextId := 2, cpc := CPc.idle,
    log := [] }

/-- The same interleaving on a `ThreadPool(2)`, with each registration
completing before the next `run` call (a registration-safe trace). -/
def c7GoodState : PoolState :=
  { q := [QItem.task tA, QItem.task tB], maxNum := 2, cancel := false,
    terminal := false, generateList := [0, 1], freeList := [],
    workers := [(0, WPc.firstGet), (1, WPc.firstGet)], nextId := 2, cpc := CPc.idle,
    log := [] }

/-! ### Claim C2 -/

/-- C2 counterexample: `run` after `terminate()` is NOT a no-op.
`terminate` sets only `terminal` (line 110), never `cancel`, so the
check at line 46 passes: the task is enqueued and a worker is even
spawned. -/
theorem c2_cex :
    runTrace (initPool 1) [Act.termBegin, Act.termClear, Act.submit tA] = some c2State ∧
    c2State.terminal = true ∧ c2State.cancel = false ∧
    c2State.q = [QItem.task tA] ∧ c2State.workers = [(0, WPc.start)] := by
  refine ⟨by decide, rfl, rfl, rfl, rfl⟩

/-- C2 (amended): after `close()` — which sets `cancel` — a subsequent
`run` is a silent no-op (returns immediately, nothing enqueued, nothing
spawned); `terminate()` does not set `cancel`, so the no-op guarantee
only holds for `close()`. -/
theorem c2_amended (s : PoolState) (t : Task) :
    (closeStep s).cancel = true ∧
    (s.cancel = true → runStep s t = s) ∧
    (∀ u u' : PoolState, step u Act.termBegin = some u' →
      u'.cancel = u.cancel ∧ u'.q = u.q) := by
  refine ⟨rfl, fun h => runStep_of_cancel t h, ?_⟩
  intro u u' h
  rcases step_cases h with ⟨t2, h1, -, -⟩ | ⟨h1, -, -⟩ | ⟨-, -, rfl⟩ |
    ⟨h1, -, -, -⟩ | ⟨h1, -, -, -⟩ | ⟨w, h1, -⟩
  · cases h1
  · cases h1
  · exact ⟨rfl, rfl⟩
  · cases h1
  · cases h1
  · cases h1

/-- C2 witness. -/
theorem c2_witness :
    (closeStep (initPool 1)).cancel = true ∧
    runStep (closeStep (initPool 1)) tA = closeStep (initPool 1) :=
  ⟨(c2_amended (closeStep (initPool 1)) tA).1,
   (c2_amended (closeStep (initPool 1)) tA).2.1 rfl⟩

/-! ### Claim C3 -/

/-- C3: on a pool whose `cancel` flag is unset, `run` spawns exactly one
new worker iff `len(free_list) == 0 and len(generate_list) < max_num`
(line 49), and in every case the task tuple is enqueued at the tail
(line 53). -/
theorem c3_run_spawn (s : PoolState) (t : Task) (h : s.cancel = false) :
    (runStep s t).q = s.q ++ [QItem.task t] ∧
    ((s.freeList.length = 0 ∧ (s.generateList.length : Int) < s.maxNum) →
      (runStep s t).workers = s.workers ++ [(s.nextId, WPc.start)]) ∧
    (¬ (s.freeList.length = 0 ∧ (s.generateList.length : Int) < s.maxNum) →
      (runStep s t).workers = s.workers) := by
  by_cases hsp : s.freeList.length = 0 ∧ (s.generateList.length : Int) < s.maxNum
  · rw [runStep_spawn t h hsp]
    exact ⟨rfl, fun _ => rfl, fun hn => absurd hsp hn⟩
  · rw [runStep_no_spawn t h hsp]
    exact ⟨rfl, fun hy => absurd hy hsp, fun _ => rfl⟩

/-- C3 witness. -/
theorem c3_witness :
    (initPool 2).cancel = false ∧
    (runStep (initPool 2) tA).q = (initPool 2).q ++ [QItem.task tA] ∧
    (runStep (initPool 2) tA).workers = (initPool 2).workers ++ [(0, WPc.start)] := by
  refine ⟨rfl, (c3_run_spawn (initPool 2) tA rfl).1, ?_⟩
  exact (c3_run_spawn (initPool 2) tA rfl).2.1 (by decide)

/-! ### Claim C8 -/

/-- C8: `close()` sets `cancel` and enqueues exactly
`len(generate_list) + 1` StopEvents at the tail (lines 100-104); the
call is one unconditional step — it is enabled whatever the queue
contains, i.e. it returns without waiting for the queue to drain, and it
touches nothing else. -/
theorem c8_close (s : PoolState) (h : s.cpc = CPc.idle) :
    step s Act.close = some (closeStep s) ∧
    (closeStep s).cancel = true ∧
    (closeStep s).q = s.q ++ List.replicate (s.generateList.length + 1) QItem.stop ∧
    countStops (closeStep s).q = countStops s.q + (s.generateList.length + 1) ∧
    (closeStep s).workers = s.workers ∧ (closeStep s).generateList = s.generateList ∧
    (closeStep s).freeList = s.freeList ∧ (closeStep s).terminal = s.terminal := by
  refine ⟨by simp [step, h], rfl, rfl, ?_, rfl, rfl, rfl, rfl⟩
  show countStops (s.q ++ List.replicate (s.generateList.length + 1) QItem.stop) = _
  simp [countStops, List.filter_append, List.filter_replicate]

/-- C8 witness. -/
theorem c8_witness :
    (initPool 1).cpc = CPc.idle ∧
    step (initPool 1) Act.close = some (closeStep (initPool 1)) ∧
    countStops (closeStep (initPool 1)).q = 1 := by
  refine ⟨rfl, (c8_close (initPool 1) rfl).1, ?_⟩
  have h := (c8_close (initPool 1) rfl).2.2.2.1
  simpa using h

/-! ### Claim C9 -/

/-- The pool object `__init__` hands back for `max_num = 0`: fully
initialized, no error. -/
def c9InitState : PoolState :=
  { q := []
    maxNum := 0
    cancel := false
    terminal := false
    generateList := []
    freeList := []
    workers := []
    nextId := 0
    cpc := CPc.idle
    log := [] }

/-- C9 counterexample: constructing a pool with `max_num = 0` is NOT
rejected — `__init__` (lines 27-36) performs no validation and returns a
fully initialized pool, and that pool still accepts `run` calls (which
enqueue but never spawn). -/
theorem c9_cex :
    initPool 0 = c9InitState ∧
    runStep (initPool 0) tA = { initPool 0 with q := [QItem.task tA] } ∧
    (runStep (initPool 0) tA).workers = [] := by
  refine ⟨rfl, by decide, by decide⟩

/-- C9 (amended): construction with `max_num ≤ 0` is accepted without
any check; on the resulting pool the spawn condition
`len(generate_list) < max_num` can never hold, so every submitted task
is enqueued but no worker is ever created to execute it. -/
theorem c9_amended (s : PoolState) (t : Task) (hm : s.maxNum ≤ 0)
    (hc : s.cancel = false) :
    runStep s t = { s with q := s.q ++ [QItem.task t] } ∧
    (runStep s t).workers = s.workers := by
  have hsp : ¬ (s.freeList.length = 0 ∧ (s.generateList.length : Int) < s.maxNum) := by
    rintro ⟨h1, h2⟩
    have h3 : (0 : Int) ≤ (s.generateList.length : Int) := Int.ofNat_nonneg _
    omega
  rw [runStep_no_spawn t hc hsp]
  exact ⟨rfl, rfl⟩

/-- C9 witness. -/
theorem c9_witness :
    (initPool 0).maxNum ≤ 0 ∧ (initPool 0).cancel = false ∧
    runStep (initPool 0) tB
      = { initPool 0 with q := (initPool 0).q ++ [QItem.task tB] } :=
  ⟨by decide, rfl, (c9_amended (initPool 0) tB (by decide) rfl).1⟩

/-! ### Claim C5 -/

/-- C5: the task body runs inside a failure boundary (lines 74-79): a
raising function yields `success = False`, `result = None`; a normal
return yields `success = True` and the value.  The worker step always
completes — it moves to the `worker_state` entry with exactly the
recorded events appended: the callback (when supplied) is invoked with
`(success, result)`, and a raising callback changes nothing (lines
81-85), leaving the loop able to continue. -/
theorem c5_task_failure (s : PoolState) (w : Nat) (t : Task)
    (h : wpcOf s w = some (WPc.runTask t)) :
    (t.fnRaises = true → execTask t = (false, none)) ∧
    (t.fnRaises = false → execTask t = (true, some t.fnResult)) ∧
    wStep s w = some { (updPc s w WPc.enterIdle) with log := s.log ++ taskEvents t } ∧
    (t.hasCb = true → Event.cb t.tid (execTask t).1 (execTask t).2 ∈ taskEvents t) ∧
    (t.hasCb = false → ∀ i b r, Event.cb i b r ∉ taskEvents t) ∧
    (∀ b, taskEvents { t with cbRaises := b } = taskEvents t) ∧
    wpcOf { (updPc s w WPc.enterIdle) with log := s.log ++ taskEvents t } w
      = some WPc.enterIdle := by
  refine ⟨?_, ?_, ?_, ?_, ?_, ?_, ?_⟩
  · intro hr
    simp [execTask, runFunc, hr]
  · intro hr
    simp [execTask, runFunc, hr]
  · unfold wStep
    rw [h]
  · intro hcb
    simp only [taskEvents, hcb, if_true]
    split <;> simp
  · intro hcb i b r
    simp [taskEvents, hcb]
  · intro b
    cases b <;> cases hcr : t.cbRaises <;> cases ht : t.hasCb <;>
      simp [taskEvents, callCb, execTask, runFunc, ht, hcr]
  · exact wpcOf_updPc_self WPc.enterIdle h

/-- C5 witness. -/
theorem c5_witness :
    wpcOf c5State 0 = some (WPc.runTask tB) ∧
    execTask tB = (false, none) ∧
    wStep c5State 0
      = some { (updPc c5State 0 WPc.enterIdle) with log := c5State.log ++ taskEvents tB } := by
  refine ⟨by decide, ?_, ?_⟩
  · exact (c5_task_failure c5State 0 tB (by decide)).1 rfl
  · exact (c5_task_failure c5State 0 tB (by decide)).2.2.1

/-! ### Claim C4 -/

theorem tasksThenStops_of_no_stop {q : List QItem} (h : ∀ it ∈ q, it ≠ QItem.stop) :
    tasksThenStops q := by
  induction q with
  | nil => trivial
  | cons e r ih =>
      cases e with
      | task t =>
          show tasksThenStops r
          exact ih (fun it hit => h it (List.mem_cons_of_mem _ hit))
      | stop => exact absurd rfl (h QItem.stop (List.mem_cons_self _ _))

/-- After `close` was called, every later step keeps `cancel` set and
keeps the queue a run of tasks followed only by StopEvents: nothing ever
puts a task behind a StopEvent. -/
theorem cancel_tts_step {s1 s2 : PoolState} {a : Act} (hc : s1.cancel = true)
    (hts : tasksThenStops s1.q) (h : step s1 a = some s2) :
    s2.cancel = true ∧ tasksThenStops s2.q := by
  rcases step_cases h with ⟨t, rfl, hcp, rfl⟩ | ⟨rfl, hcp, rfl⟩ | ⟨rfl, hcp, rfl⟩ |
    ⟨rfl, hcp, hne, rfl⟩ | ⟨rfl, hcp, hge, rfl⟩ | ⟨w, rfl, hws⟩
  · rw [runStep_of_cancel t hc]
    exact ⟨hc, hts⟩
  · refine ⟨rfl, ?_⟩
    show tasksThenStops (s1.q ++ List.replicate (s1.generateList.length + 1) QItem.stop)
    exact tasksThenStops_append_stops hts _
  · exact ⟨hc, hts⟩
  · refine ⟨hc, ?_⟩
    show tasksThenStops (s1.q ++ [QItem.stop])
    have h1 := tasksThenStops_append_stops hts 1
    simpa using h1
  · exact ⟨hc, trivial⟩
  · rcases wStep_cases hws with ⟨hpc, rfl⟩ | ⟨e, rest, hpc, hqe, rfl⟩ | ⟨hpc, rfl⟩ |
      ⟨t, hpc, rfl⟩ | ⟨t, hpc, rfl⟩ | ⟨hpc, rfl⟩ | ⟨hpc, ht, rfl⟩ | ⟨hpc, ht, rfl⟩ |
      ⟨e, rest, hpc, hqe, rfl⟩ | ⟨e, hpc, rfl⟩ | ⟨hpc, rfl⟩
    · exact ⟨hc, hts⟩
    · rw [hqe] at hts
      exact ⟨hc, tasksThenStops_tail hts⟩
    · exact ⟨hc, hts⟩
    · exact ⟨hc, hts⟩
    · exact ⟨hc, hts⟩
    · exact ⟨hc, hts⟩
    · exact ⟨hc, hts⟩
    · exact ⟨hc, hts⟩
    · rw [hqe] at hts
      exact ⟨hc, tasksThenStops_tail hts⟩
    · exact ⟨hc, hts⟩
    · exact ⟨hc, hts⟩

/-- C4: FIFO order around `close()`.  `close` appends its StopEvents
behind every already-queued task; once `cancel` is set that
tasks-then-stops layout is preserved by every step; a `q.get()` always
takes the queue's head, so a worker can only receive a StopEvent from
the close batch once no pre-close task remains in the queue — every such
task was dequeued (and hence executed by its taker) first. -/
theorem c4_fifo (s : PoolState) (hT : ∀ it ∈ s.q, it ≠ QItem.stop)
    (s1 : PoolState) (a : Act) (s2 : PoolState) (hc : s1.cancel = true)
    (hts : tasksThenStops s1.q) (hstep : step s1 a = some s2)
    (q : List QItem) (hq : tasksThenStops q) (hhead : q.head? = some QItem.stop)
    (s3 : PoolState) (w : Nat) (e : QItem) (rest : List QItem) (hq3 : s3.q = e :: rest)
    (hpc3 : wpcOf s3 w = some WPc.firstGet ∨ wpcOf s3 w = some WPc.idleGet)
    (s4 : PoolState) (hw4 : wStep s3 w = some s4) :
    tasksThenStops (closeStep s).q ∧
    (closeStep s).cancel = true ∧
    (s2.cancel = true ∧ tasksThenStops s2.q) ∧
    (∀ it ∈ q, it = QItem.stop) ∧
    (s4.q = rest ∧
      (wpcOf s4 w = some (WPc.loopCheck e) ∨ wpcOf s4 w = some (WPc.exitIdle e))) := by
  refine ⟨?_, rfl, cancel_tts_step hc hts hstep, tasksThenStops_head_stop hq hhead, ?_⟩
  · show tasksThenStops (s.q ++ List.replicate (s.generateList.length + 1) QItem.stop)
    exact tasksThenStops_append_stops (tasksThenStops_of_no_stop hT) _
  · rcases hpc3 with hpc | hpc
    · unfold wStep at hw4
      rw [hpc, hq3] at hw4
      have hs4 := Option.some.inj hw4
      subst hs4
      exact ⟨rfl, Or.inl (wpcOf_updPc_self (WPc.loopCheck e) hpc)⟩
    · unfold wStep at hw4
      rw [hpc, hq3] at hw4
      have hs4 := Option.some.inj hw4
      subst hs4
      exact ⟨rfl, Or.inr (wpcOf_updPc_self (WPc.exitIdle e) hpc)⟩

/-- C4 witness. -/
theorem c4_witness :
    tasksThenStops (closeStep c10State).q ∧ c4S2.cancel = true ∧
    tasksThenStops c4S2.q ∧ c4S2.q = [QItem.stop, QItem.stop] := by
  have happ := c4_fifo c10State (by decide)
    (closeStep c10State) (Act.wstep 0) c4S2 (by decide) (by decide) (by decide)
    [QItem.stop, QItem.stop] (by decide) rfl
    (closeStep c10State) 0 (QItem.task tA) [QItem.stop, QItem.stop] (by decide)
    (Or.inl (by decide)) c4S2 (by decide)
  exact ⟨happ.1, happ.2.2.1.1, happ.2.2.1.2, happ.2.2.2.2.1⟩

/-! ### Claim C1 -/

/-- C1 counterexample: `terminate` does not enqueue exactly one
StopSignal per active worker and does not leave signals visible after
the clear.  From `ThreadPool(1)` with one registered worker, two loop
iterations already put two StopEvents (and the loop is still enabled,
so a third could follow); and when `terminate` finally returns (the
`q.queue.clear()` at line 115), the queue is empty — zero StopSignals
remain visible. -/
theorem c1_cex :
    runTrace (initPool 1) [Act.submit tA, Act.wstep 0, Act.termBegin, Act.termLoopPut,
      Act.termLoopPut] = some c1StateMid ∧
    c1StateMid.generateList = [0] ∧
    countStops c1StateMid.q = 2 ∧
    step c1StateMid Act.termLoopPut ≠ none ∧
    runTrace c1StateMid [Act.wstep 0, Act.wstep 0, Act.wstep 0, Act.wstep 0, Act.wstep 0,
      Act.wstep 0, Act.wstep 0, Act.wstep 0, Act.termClear] = some c1StateEnd ∧
    c1StateEnd.q = [] ∧ countStops c1StateEnd.q = 0 := by
  refine ⟨by decide, rfl, by decide, by decide, by decide, rfl, by decide⟩

/-- C1 (amended): `terminate()` sets `terminal` and enters its loop;
each loop iteration requires some registered worker to remain and puts
one StopEvent at the tail (so possibly several per worker); the final
clear is only reached once no registered worker remains, and it empties
the whole queue — StopSignals included — leaving `terminal` set.  A task
id that is absent after the clear (neither queued nor held by any
worker) never produces an event again: its callback never fires. -/
theorem c1_amended (sB : PoolState) (hB : sB.cpc = CPc.idle)
    (tid : Nat) (s3 : PoolState) (habs : tidAbsent tid s3)
    (as : List Act) (hsub : ∀ a ∈ as, ∀ t, a = Act.submit t → t.tid ≠ tid)
    (s4 : PoolState) (htr : runTrace s3 as = some s4) :
    step sB Act.termBegin = some { sB with terminal := true, cpc := CPc.terming } ∧
    (∀ u u' : PoolState, step u Act.termLoopPut = some u' →
      u.cpc = CPc.terming ∧ u.generateList ≠ [] ∧ u'.q = u.q ++ [QItem.stop]) ∧
    (∀ u u' : PoolState, step u Act.termClear = some u' →
      u.cpc = CPc.terming ∧ u.generateList = [] ∧ u'.q = [] ∧
      u'.terminal = u.terminal ∧ u'.cancel = u.cancel) ∧
    tidAbsent tid s4 ∧ (∀ e ∈ s4.log, e ∈ s3.log ∨ eventTid e ≠ tid) := by
  refine ⟨by simp [step, hB], ?_, ?_, ?_, ?_⟩
  · intro u u' h
    rcases step_cases h with ⟨t, h1, -, -⟩ | ⟨h1, -, -⟩ | ⟨h1, -, -⟩ |
      ⟨-, hcp, hne, rfl⟩ | ⟨h1, -, -, -⟩ | ⟨w, h1, -⟩
    · cases h1
    · cases h1
    · cases h1
    · exact ⟨hcp, hne, rfl⟩
    · cases h1
    · cases h1
  · intro u u' h
    rcases step_cases h with ⟨t, h1, -, -⟩ | ⟨h1, -, -⟩ | ⟨h1, -, -⟩ |
      ⟨h1, -, -, -⟩ | ⟨-, hcp, hge, rfl⟩ | ⟨w, h1, -⟩
    · cases h1
    · cases h1
    · cases h1
    · cases h1
    · exact ⟨hcp, hge, rfl, rfl, rfl⟩
    · cases h1
  · exact (tidAbsent_runTrace habs hsub htr).1
  · exact (tidAbsent_runTrace habs hsub htr).2

/-- C1 witness. -/
theorem c1_witness :
    step (initPool 1) Act.termBegin
      = some { initPool 1 with terminal := true, cpc := CPc.terming } ∧
    tidAbsent 5 c1WitEnd ∧
    (∀ e ∈ c1WitEnd.log, e ∈ c1StateEnd.log ∨ eventTid e ≠ 5) := by
  have happ := c1_amended (initPool 1) rfl 5 c1StateEnd (by decide)
    [Act.submit tA]
    (by
      intro a ha t hat
      simp only [List.mem_singleton] at ha
      subst ha
      injection hat with hat2
      rw [← hat2]
      decide)
    c1WitEnd (by decide)
  exact ⟨happ.1, happ.2.2.2.1, happ.2.2.2.2⟩

/-! ### Claim C7 -/

/-- C7 counterexample: a reachable state of a `ThreadPool(1)` with TWO
threads in `generate_list`.  Two `run` calls both pass the
`len(generate_list) < max_num` check at line 49 before either spawned
thread has executed its self-registration at line 68 — there is no lock
around check-then-spawn. -/
theorem c7_cex :
    runTrace (initPool 1) [Act.submit tA, Act.submit tB, Act.wstep 0, Act.wstep 1]
      = some c7State ∧
    c7State.maxNum = 1 ∧ c7State.generateList = [0, 1] ∧
    ¬ ((c7State.generateList.length : Int) ≤ c7State.maxNum) := by
  refine ⟨by decide, rfl, rfl, by decide⟩

/-- C7 (amended): `free_list ⊆ generate_list` holds in every reachable
state; the bound `|generate_list| ≤ max(max_num, 0)` holds on every
trace in which no `run` call happens while a spawned thread is still
unregistered (`SubmitSafe`) — the unguarded check-then-spawn race is
exactly what the restriction excludes. -/
theorem c7_amended (m : Int) (as : List Act) (s : PoolState)
    (h1 : runTrace (initPool m) as = some s) :
    (∀ w ∈ s.freeList, w ∈ s.generateList) ∧
    (SubmitSafe (initPool m) as → (s.generateList.length : Int) ≤ max s.maxNum 0) := by
  have hwf := wf_runTrace (wf_init m) h1
  refine ⟨wf_free_subset_gen hwf, ?_⟩
  intro hss
  have hb : Bnd (initPool m) := by
    show ((initPool m).generateList.length + countStart (initPool m).workers : Int)
      ≤ max (initPool m).maxNum 0
    simp [initPool, countStart]
  have hb2 := bnd_runTrace (wf_init m) hb hss h1
  unfold Bnd at hb2
  have h3 : (0 : Int) ≤ (countStart s.workers : Int) := Int.ofNat_nonneg _
  omega

/-- C7 witness. -/
theorem c7_witness :
    (∀ w ∈ c7GoodState.freeList, w ∈ c7GoodState.generateList) ∧
    (c7GoodState.generateList.length : Int) ≤ max c7GoodState.maxNum 0 := by
  have happ := c7_amended 2 [Act.submit tA, Act.wstep 0, Act.submit tB, Act.wstep 1]
    c7GoodState (by decide)
  exact ⟨happ.1, happ.2 (by decide)⟩

/-! ### Claim C10 -/

/-- C10: a freshly spawned worker does its first blocking `q.get()`
(line 70) without being registered in `free_list` — only the
`worker_state`-bracketed waits after a completed task put it there — so
while all workers are new (at `start` or the first get), `free_list` is
empty and a `run` call with room below `max_num` spawns a further
worker. -/
theorem c10_first_get (m : Int) (as : List Act) (s : PoolState)
    (hs : runTrace (initPool m) as = some s) :
    (∀ w, wpcOf s w = some WPc.firstGet → w ∉ s.freeList) ∧
    (∀ w ∈ s.freeList, ∃ pc, (w, pc) ∈ s.workers ∧ isIdlePc pc = true) ∧
    ((∀ p ∈ s.workers, p.2 = WPc.firstGet ∨ p.2 = WPc.start) → s.freeList = []) ∧
    (s.freeList = [] → s.cancel = false → (s.generateList.length : Int) < s.maxNum →
      ∀ t, (runStep s t).workers = s.workers ++ [(s.nextId, WPc.start)]) := by
  have hwf := wf_runTrace (wf_init m) hs
  refine ⟨?_, ?_, ?_, ?_⟩
  · intro w hpc hmem
    have hch := (hwf.freeChar _ (wpcOf_mem hpc)).mp hmem
    simp [isIdlePc] at hch
  · intro w hw
    obtain ⟨pc, hpc⟩ := hwf.freeSub w hw
    exact ⟨pc, hpc, (hwf.freeChar _ hpc).mp hw⟩
  · intro hall
    by_contra hne2
    obtain ⟨w, hw⟩ := List.exists_mem_of_ne_nil _ hne2
    obtain ⟨pc, hpc⟩ := hwf.freeSub w hw
    have hidle := (hwf.freeChar _ hpc).mp hw
    rcases hall _ hpc with h1 | h1 <;>
      · simp only at h1
        subst h1
        simp [isIdlePc] at hidle
  · intro hf hc hlt t
    have hsp : s.freeList.length = 0 ∧ (s.generateList.length : Int) < s.maxNum :=
      ⟨by rw [hf]; rfl, hlt⟩
    rw [runStep_spawn t hc hsp]
    rfl

/-- C10 witness. -/
theorem c10_witness :
    (0 : Nat) ∉ c10State.freeList ∧
    c10State.freeList = [] ∧
    (runStep c10State tB).workers = c10State.workers ++ [(1, WPc.start)] := by
  have happ := c10_first_get 2 [Act.submit tA, Act.wstep 0] c10State (by decide)
  exact ⟨happ.1 0 (by decide), rfl, happ.2.2.2 rfl rfl (by decide) tB⟩

/-! ### Claim C6 -/

/-- C6: across any step from a reachable state, a worker is removed from
`generate_list` exactly by its own `generate_list.remove` statement at
line 94 — reached only after its loop observed `StopEvent` — never while
it is at the task body (`runTask`); and once removed it is `done`
forever: no later step ever puts it back or removes it again. -/
theorem c6_removal (m : Int) (as : List Act) (s : PoolState)
    (hs : runTrace (initPool m) as = some s) (a : Act) (s' : PoolState)
    (h : step s a = some s') :
    (∀ w, (w ∈ s.generateList ∧ w ∉ s'.generateList) ↔
      (a = Act.wstep w ∧ wpcOf s w = some WPc.removeSelf)) ∧
    (∀ w, wpcOf s' w = some WPc.removeSelf →
      wpcOf s w = some WPc.removeSelf ∨
      (a = Act.wstep w ∧ wpcOf s w = some (WPc.loopCheck QItem.stop))) ∧
    (∀ w t, a = Act.wstep w → wpcOf s w = some (WPc.runTask t) →
      s'.generateList = s.generateList) ∧
    (∀ w, a = Act.wstep w → wpcOf s w = some WPc.removeSelf →
      wpcOf s' w = some WPc.done ∧ w ∉ s'.generateList ∧
      ∀ as2 s'', runTrace s' as2 = some s'' →
        wpcOf s'' w = some WPc.done ∧ w ∉ s''.generateList) := by
  have hwf : WF s := wf_runTrace (wf_init m) hs
  refine ⟨?_, ?_, ?_, ?_⟩
  · intro w
    constructor
    · rintro ⟨hin, hout⟩
      rcases step_cases h with ⟨t, rfl, hcp, rfl⟩ | ⟨rfl, hcp, rfl⟩ | ⟨rfl, hcp, rfl⟩ |
        ⟨rfl, hcp, hne, rfl⟩ | ⟨rfl, hcp, hge, rfl⟩ | ⟨w', rfl, hws⟩
      · rw [runStep_generateList] at hout
        exact absurd hin hout
      · exact absurd hin hout
      · exact absurd hin hout
      · exact absurd hin hout
      · exact absurd hin hout
      · rcases wStep_cases hws with ⟨hpc, rfl⟩ | ⟨e, rest, hpc, hqe, rfl⟩ | ⟨hpc, rfl⟩ |
          ⟨t, hpc, rfl⟩ | ⟨t, hpc, rfl⟩ | ⟨hpc, rfl⟩ | ⟨hpc, ht, rfl⟩ | ⟨hpc, ht, rfl⟩ |
          ⟨e, rest, hpc, hqe, rfl⟩ | ⟨e, hpc, rfl⟩ | ⟨hpc, rfl⟩
        · exact absurd (List.mem_append_left _ hin) hout
        · exact absurd hin hout
        · exact absurd hin hout
        · exact absurd hin hout
        · exact absurd hin hout
        · exact absurd hin hout
        · exact absurd hin hout
        · exact absurd hin hout
        · exact absurd hin hout
        · exact absurd hin hout
        · by_cases hww : w = w'
          · subst hww
            exact ⟨rfl, hpc⟩
          · exact absurd ((List.mem_erase_of_ne hww).mpr hin) hout
    · rintro ⟨rfl, hpc⟩
      have hws : wStep s w = some s' := h
      unfold wStep at hws
      rw [hpc] at hws
      have hs' := Option.some.inj hws
      subst hs'
      have hmem := wpcOf_mem hpc
      refine ⟨(hwf.genChar _ hmem).mpr (by simp [isActivePc]), ?_⟩
      intro hmem2
      have hmem3 : w ∈ s.generateList.erase w := hmem2
      exact absurd ((hwf.genNodup.mem_erase_iff).mp hmem3).1 (by simp)
  · intro w hw'
    rcases step_cases h with ⟨t, rfl, hcp, rfl⟩ | ⟨rfl, hcp, rfl⟩ | ⟨rfl, hcp, rfl⟩ |
      ⟨rfl, hcp, hne, rfl⟩ | ⟨rfl, hcp, hge, rfl⟩ | ⟨w', rfl, hws⟩
    · by_cases hcan : s.cancel = true
      · rw [runStep_of_cancel t hcan] at hw'
        exact Or.inl hw'
      · rw [Bool.not_eq_true] at hcan
        by_cases hsp : s.freeList.length = 0 ∧ (s.generateList.length : Int) < s.maxNum
        · rw [runStep_spawn t hcan hsp] at hw'
          have hw2 : wpcOf (spawnWorker s) w = some WPc.removeSelf := hw'
          rcases wpcOf_spawn_cases hw2 with h1 | ⟨h1, h2⟩
          · exact Or.inl h1
          · cases h2
        · rw [runStep_no_spawn t hcan hsp] at hw'
          exact Or.inl hw'
    · exact Or.inl hw'
    · exact Or.inl hw'
    · exact Or.inl hw'
    · exact Or.inl hw'
    · by_cases hww : w = w'
      · subst hww
        rcases wStep_cases hws with ⟨hpc, rfl⟩ | ⟨e, rest, hpc, hqe, rfl⟩ | ⟨hpc, rfl⟩ |
          ⟨t, hpc, rfl⟩ | ⟨t, hpc, rfl⟩ | ⟨hpc, rfl⟩ | ⟨hpc, ht, rfl⟩ | ⟨hpc, ht, rfl⟩ |
          ⟨e, rest, hpc, hqe, rfl⟩ | ⟨e, hpc, rfl⟩ | ⟨hpc, rfl⟩
        · have h2 : wpcOf (updPc s w WPc.firstGet) w = some WPc.removeSelf := hw'
          rw [wpcOf_updPc_self WPc.firstGet hpc] at h2
          cases h2
        · have h2 : wpcOf (updPc s w (WPc.loopCheck e)) w = some WPc.removeSelf := hw'
          rw [wpcOf_updPc_self (WPc.loopCheck e) hpc] at h2
          cases h2
        · exact Or.inr ⟨rfl, hpc⟩
        · have h2 : wpcOf (updPc s w (WPc.runTask t)) w = some WPc.removeSelf := hw'
          rw [wpcOf_updPc_self (WPc.runTask t) hpc] at h2
          cases h2
        · have h2 : wpcOf (updPc s w WPc.enterIdle) w = some WPc.removeSelf := hw'
          rw [wpcOf_updPc_self WPc.enterIdle hpc] at h2
          cases h2
        · have h2 : wpcOf (updPc s w WPc.idleCheck) w = some WPc.removeSelf := hw'
          rw [wpcOf_updPc_self WPc.idleCheck hpc] at h2
          cases h2
        · have h2 : wpcOf (updPc s w (WPc.exitIdle QItem.stop)) w = some WPc.removeSelf := hw'
          rw [wpcOf_updPc_self (WPc.exitIdle QItem.stop) hpc] at h2
          cases h2
        · have h2 : wpcOf (updPc s w WPc.idleGet) w = some WPc.removeSelf := hw'
          rw [wpcOf_updPc_self WPc.idleGet hpc] at h2
          cases h2
        · have h2 : wpcOf (updPc s w (WPc.exitIdle e)) w = some WPc.removeSelf := hw'
          rw [wpcOf_updPc_self (WPc.exitIdle e) hpc] at h2
          cases h2
        · have h2 : wpcOf (updPc s w (WPc.loopCheck e)) w = some WPc.removeSelf := hw'
          rw [wpcOf_updPc_self (WPc.loopCheck e) hpc] at h2
          cases h2
        · have h2 : wpcOf (updPc s w WPc.done) w = some WPc.removeSelf := hw'
          rw [wpcOf_updPc_self WPc.done hpc] at h2
          cases h2
      · have hww2 : w ≠ w' := hww
        rcases wStep_cases hws with ⟨hpc, rfl⟩ | ⟨e, rest, hpc, hqe, rfl⟩ | ⟨hpc, rfl⟩ |
          ⟨t, hpc, rfl⟩ | ⟨t, hpc, rfl⟩ | ⟨hpc, rfl⟩ | ⟨hpc, ht, rfl⟩ | ⟨hpc, ht, rfl⟩ |
          ⟨e, rest, hpc, hqe, rfl⟩ | ⟨e, hpc, rfl⟩ | ⟨hpc, rfl⟩
        · exact Or.inl ((wpcOf_updPc_ne WPc.firstGet hww2).symm.trans hw')
        · exact Or.inl ((wpcOf_updPc_ne (WPc.loopCheck e) hww2).symm.trans hw')
        · exact Or.inl ((wpcOf_updPc_ne WPc.removeSelf hww2).symm.trans hw')
        · exact Or.inl ((wpcOf_updPc_ne (WPc.runTask t) hww2).symm.trans hw')
        · exact Or.inl ((wpcOf_updPc_ne WPc.enterIdle hww2).symm.trans hw')
        · exact Or.inl ((wpcOf_updPc_ne WPc.idleCheck hww2).symm.trans hw')
        · exact Or.inl ((wpcOf_updPc_ne (WPc.exitIdle QItem.stop) hww2).symm.trans hw')
        · exact Or.inl ((wpcOf_updPc_ne WPc.idleGet hww2).symm.trans hw')
        · exact Or.inl ((wpcOf_updPc_ne (WPc.exitIdle e) hww2).symm.trans hw')
        · exact Or.inl ((wpcOf_updPc_ne (WPc.loopCheck e) hww2).symm.trans hw')
        · exact Or.inl ((wpcOf_updPc_ne WPc.done hww2).symm.trans hw')
  · intro w t ha hpc
    rw [ha] at h
    have hws : wStep s w = some s' := h
    unfold wStep at hws
    rw [hpc] at hws
    have hs' := Option.some.inj hws
    subst hs'
    rfl
  · intro w ha hpc
    rw [ha] at h
    have hws : wStep s w = some s' := h
    unfold wStep at hws
    rw [hpc] at hws
    have hs' := Option.some.inj hws
    subst hs'
    have hd : wpcOf { (updPc s w WPc.done) with
        generateList := s.generateList.erase w } w = some WPc.done :=
      wpcOf_updPc_self WPc.done hpc
    have hg : w ∉ ({ (updPc s w WPc.done) with
        generateList := s.generateList.erase w } : PoolState).generateList := by
      intro hh
      have hh2 : w ∈ s.generateList.erase w := hh
      exact absurd ((hwf.genNodup.mem_erase_iff).mp hh2).1 (by simp)
    refine ⟨hd, hg, ?_⟩
    intro as2 s'' htr
    exact doneOut_runTrace hd hg htr

/-- C6 witness. -/
theorem c6_witness :
    ((0 : Nat) ∈ c6Pre.generateList ∧ (0 : Nat) ∉ c6Post.generateList) ∧
    wpcOf c6Post 0 = some WPc.done := by
  have happ := c6_removal 1
    [Act.submit tA, Act.wstep 0, Act.termBegin, Act.termLoopPut, Act.termLoopPut,
      Act.wstep 0, Act.wstep 0, Act.wstep 0, Act.wstep 0, Act.wstep 0, Act.wstep 0,
      Act.wstep 0]
    c6Pre (by decide) (Act.wstep 0) c6Post (by decide)
  exact ⟨(happ.1 0).mpr ⟨rfl, by decide⟩, (happ.2.2.2 0 rfl (by decide)).1⟩

end TP
